import Mathlib

/-!
Verification of the AI Content Humanizer (src/humanizer.py).

The humanizer is a pipeline of pure string transformations implemented with
Python regular expressions.  We shallowly embed the pipeline over `List Char`:
each `re.sub` call becomes an explicit left-to-right scanner, each pattern of
the source (all of which are alternations of literals, optional pieces,
whitespace runs and word boundaries) becomes an ordered list of literal
variants matched with backtracking order identical to the regex engine's.
Characters are handled at ASCII fidelity (the inputs of the specification and
of the self tests are ASCII; Python's Unicode-aware `\w`, `str.upper`,
`str.lower`, `str.strip` agree with the ASCII model on them).
-/

/-- ASCII model of Python's `\s` class and of the characters stripped by
`str.strip()`: space, tab, newline, carriage return, vertical tab, form feed. -/
def pyIsSpace (c : Char) : Bool :=
  c = ' ' || c = '\t' || c = '\n' || c = '\r' || c = '\x0b' || c = '\x0c'

/-- ASCII model of the regex word-character class `\w` = `[A-Za-z0-9_]`,
used by `\b` word boundaries. -/
def isWordChar (c : Char) : Bool :=
  (97 ≤ c.toNat && c.toNat ≤ 122) || (65 ≤ c.toNat && c.toNat ≤ 90) ||
  (48 ≤ c.toNat && c.toNat ≤ 57) || c = '_'

/-- ASCII model of `c.islower()` for a single character. -/
def pyIsLowerAlpha (c : Char) : Bool := 97 ≤ c.toNat && c.toNat ≤ 122

/-- ASCII model of `c.isupper()` for a single character. -/
def pyIsUpperAlpha (c : Char) : Bool := 65 ≤ c.toNat && c.toNat ≤ 90

/-- The regex class `[A-Za-z]` of `clean_whitespace`. -/
def isAsciiLetter (c : Char) : Bool := pyIsLowerAlpha c || pyIsUpperAlpha c

/-- ASCII model of Python's `str.upper()` on one character. -/
def pyUpperChar (c : Char) : Char :=
  if 97 ≤ c.toNat ∧ c.toNat ≤ 122 then Char.ofNat (c.toNat - 32) else c

/-- ASCII model of Python's `str.lower()` on one character; also used for
`re.IGNORECASE` matching. -/
def pyLowerChar (c : Char) : Char :=
  if 65 ≤ c.toNat ∧ c.toNat ≤ 90 then Char.ofNat (c.toNat + 32) else c

/-- Drop leading Python whitespace. -/
def pyDropLeft (l : List Char) : List Char := l.dropWhile pyIsSpace

/-- ASCII model of Python's `str.strip()`. -/
def pyStrip (l : List Char) : List Char :=
  ((l.dropWhile pyIsSpace).reverse.dropWhile pyIsSpace).reverse

/-- Python's `text[i]`, which raises `IndexError` out of range; modelled as
an `Option`. -/
def pyIndex (l : List Char) (i : Nat) : Option Char := l.get? i

/-- Python's `text.split(sep)` for a one-character separator. -/
def splitOnChar (c : Char) : List Char → List (List Char)
  | [] => [[]]
  | x :: xs =>
    let r := splitOnChar c xs
    if x = c then [] :: r
    else
      match r with
      | p :: ps => (x :: p) :: ps
      | [] => [[x]]

/-- Python's `sep.join(parts)`. -/
def joinSep (sep : List Char) : List (List Char) → List Char
  | [] => []
  | [p] => p
  | p :: ps => p ++ sep ++ joinSep sep ps

/-- `a` is a (case-sensitive) leading piece of `l`. -/
def leadsWith : List Char → List Char → Bool
  | [], _ => true
  | _ :: _, [] => false
  | a :: as, b :: bs => a = b && leadsWith as bs

/-- Python's `sub in s` substring test. -/
def containsSub (p : List Char) : List Char → Bool
  | [] => leadsWith p []
  | l@(_ :: cs) => leadsWith p l || containsSub p cs

example : containsSub "lve".data "delve".data = true := by decide
example : containsSub "xy".data "delve".data = false := by decide

/-! ## Maximal-run collapsing

`re.sub(r'[c]{m,}', repl, text)` replaces every maximal run of `m` or more
copies of `c` by `repl` (the quantifier is greedy and `re.sub` resumes after
each match, so exactly the maximal runs are rewritten). -/

/-- What a pending run of `k` copies of `c` contributes to the output. -/
def runEmit (c : Char) (m : Nat) (r : List Char) (k : Nat) : List Char :=
  if k = 0 then [] else if m ≤ k then r else List.replicate k c

/-- State-machine form of run collapsing: `k` counts the pending run of `c`. -/
def collapseAux (c : Char) (m : Nat) (r : List Char) : Nat → List Char → List Char
  | k, [] => runEmit c m r k
  | k, x :: xs =>
    if x = c then collapseAux c m r (k + 1) xs
    else runEmit c m r k ++ x :: collapseAux c m r 0 xs

/-- `re.sub(r'[c]{m,}', r, text)` for a single-character class. -/
def collapseRun (c : Char) (m : Nat) (r : List Char) (l : List Char) : List Char :=
  collapseAux c m r 0 l

example : collapseRun '!' 2 ['!'] "ab!!!c!d!!".data = "ab!c!d!".data := by decide
example : collapseRun '.' 3 "...".data "a.. b....c".data = "a.. b...c".data := by decide

/-- Buffer-based collapsing for a character class (`re.sub(r'[!?]{2,}', r, t)`):
`acc` holds the pending run in order. -/
def collapseClassAux (P : Char → Bool) (m : Nat) (r : List Char)
    (acc : List Char) : List Char → List Char
  | [] => if m ≤ acc.length then r else acc
  | x :: xs =>
    if P x then collapseClassAux P m r (acc ++ [x]) xs
    else (if m ≤ acc.length then r else acc) ++ x :: collapseClassAux P m r [] xs

/-- `re.sub` over a character-class run pattern `[..]{m,}`. -/
def collapseClass (P : Char → Bool) (m : Nat) (r : List Char) (l : List Char) : List Char :=
  collapseClassAux P m r [] l

example : collapseClass (fun c => c = '!' || c = '?') 2 [] "hi!?! yes! no??".data
    = "hi yes! no".data := by decide

/-! ## The pattern engine

Every pattern in the source is a sequence of: literal alternations
(case-insensitive or not), optional pieces, `\s+`, `\s*` (only trailing),
with optional `\b` at either end.  We compile each pattern to an ordered
list of *variants*: the full expansions of its alternations, in exactly the
order the backtracking regex engine tries them (leftmost group most
significant, each `x?` trying presence before absence).  A variant is a
sequence of segments: literals and `\s+` runs. -/

inductive Seg where
  | lit (s : List Char)
  | ws1
deriving DecidableEq, Repr

/-- A compiled `re.sub` rule.  `ci`: `re.IGNORECASE`; `bb`/`ba`: `\b` at the
start/end of the pattern (every such pattern of the source starts and ends
with a word character, so `\b` there means: adjacent character absent or not
a word character); `trailWs`: a final greedy `\s*`; `anchored`: a leading
`^` (no `re.MULTILINE`, so the pattern can only match at the very start). -/
structure RRule where
  ci : Bool
  bb : Bool
  ba : Bool
  variants : List (List Seg)
  trailWs : Bool
  anchored : Bool
  repl : List Char
deriving Repr

/-- Strip a literal (stored lowercase when `ci`) from the head of the text. -/
def stripLit (ci : Bool) : List Char → List Char → Option (List Char)
  | [], l => some l
  | _ :: _, [] => none
  | p :: ps, c :: cs =>
    if (if ci then pyLowerChar c else c) = p then stripLit ci ps cs else none

/-- Match one variant at the head of `l`; on success return the rest of the
text.  The end boundary `ba` is checked after the last segment. -/
def matchVar (ci ba : Bool) : List Seg → List Char → Option (List Char)
  | [], l =>
    if ba then
      match l with
      | [] => some []
      | c :: _ => if isWordChar c then none else some l
    else some l
  | Seg.lit s :: gs, l =>
    match stripLit ci s l with
    | some r => matchVar ci ba gs r
    | none => none
  | Seg.ws1 :: gs, l =>
    match l with
    | [] => none
    | c :: _ => if pyIsSpace c then matchVar ci ba gs (l.dropWhile pyIsSpace) else none

/-- First variant that matches, in backtracking order. -/
def matchVars (ci ba : Bool) (vs : List (List Seg)) (l : List Char) : Option (List Char) :=
  match vs with
  | [] => none
  | v :: vs' =>
    match matchVar ci ba v l with
    | some r => some r
    | none => matchVars ci ba vs' l

/-- Try to match rule `r` at the head of `l` (the start boundary is handled
by the scanner); consumes the trailing `\s*` when present. -/
def matchRuleAt (r : RRule) (l : List Char) : Option (List Char) :=
  match matchVars r.ci r.ba r.variants l with
  | some rest => some (if r.trailWs then rest.dropWhile pyIsSpace else rest)
  | none => none

/-- Scanner for `re.sub`: walk the text, attempting the rule at each
position whose preceding character satisfies the start boundary; on a match
emit the replacement and resume after the consumed span (never rescanning
the replacement), exactly as `re.sub` does.  `fuel` only forces
termination; every step consumes at least one character (no pattern of the
source matches the empty string), so `length + 1` fuel is never exhausted. -/
def subRuleF (r : RRule) : Nat → Bool → List Char → List Char
  | 0, _, l => l
  | _ + 1, _, [] => []
  | fuel + 1, prevW, c :: cs =>
    if !r.bb || !prevW then
      match matchRuleAt r (c :: cs) with
      | some rest =>
        let consumed := (c :: cs).length - rest.length
        let lastW :=
          match (c :: cs).get? (consumed - 1) with
          | some d => isWordChar d
          | none => prevW
        r.repl ++ subRuleF r fuel lastW rest
      | none => c :: subRuleF r fuel (isWordChar c) cs
    else c :: subRuleF r fuel (isWordChar c) cs

/-- `re.sub(pattern, repl, text)` for an unanchored rule. -/
def subRule (r : RRule) (l : List Char) : List Char :=
  subRuleF r (l.length + 1) false l

/-- `re.sub` for an `^`-anchored rule: it can match only at position 0. -/
def subAnchored (r : RRule) (l : List Char) : List Char :=
  match matchRuleAt r l with
  | some rest => r.repl ++ rest
  | none => l

/-- Apply a list of `re.sub` rules in order. -/
def subRules (rs : List RRule) (l : List Char) : List Char :=
  rs.foldl (fun t r => subRule r t) l

/-- `re.findall`: the matched spans, left to right, non-overlapping. -/
def findAllF (r : RRule) : Nat → Bool → List Char → List (List Char)
  | 0, _, _ => []
  | _ + 1, _, [] => []
  | fuel + 1, prevW, c :: cs =>
    if !r.bb || !prevW then
      match matchVars r.ci r.ba r.variants (c :: cs) with
      | some rest =>
        let consumed := (c :: cs).length - rest.length
        let lastW :=
          match (c :: cs).get? (consumed - 1) with
          | some d => isWordChar d
          | none => prevW
        (c :: cs).take consumed :: findAllF r fuel lastW rest
      | none => findAllF r fuel (isWordChar c) cs
    else findAllF r fuel (isWordChar c) cs

def findAll (r : RRule) (l : List Char) : List (List Char) :=
  findAllF r (l.length + 1) false l

/-- Ordered expansion of a sequence of literal alternation groups, leftmost
group most significant — the order a backtracking regex engine tries the
alternatives. -/
def expandGroups : List (List (List Char)) → List (List Char)
  | [] => [[]]
  | g :: gs => g.flatMap (fun a => (expandGroups gs).map (fun r => a ++ r))

/-- Expansions of string groups, as single-literal variants. -/
def litVariants (gs : List (List String)) : List (List Seg) :=
  (expandGroups (gs.map (fun g => g.map String.data))).map (fun s => [Seg.lit s])

/-- A plain case-insensitive word rule `\b stem (?:suf1|suf2|...)? \b`. -/
def wordRule (stems : List String) (repl : String) : RRule :=
  { ci := true, bb := true, ba := true,
    variants := stems.map (fun s => [Seg.lit s.data]),
    trailWs := false, anchored := false, repl := repl.data }

example : matchRuleAt (wordRule ["delves", "delved", "delve"] "explore") "delves!".data
    = some "!".data := by decide
example : matchRuleAt (wordRule ["delves", "delved", "delve"] "explore") "delver".data
    = none := by decide
example : subRule (wordRule ["delves", "delved", "delve"] "explore") "I DELVE in".data
    = "I explore in".data := by decide

/-! ## Rule tables (`ContentHumanizer.__init__`) -/

/-- `self.word_replacements`, in dict-insertion order.  Each entry is the
ordered expansion of its pattern's alternations. -/
def word_replacements : List RRule := [
  wordRule ["delves", "delved", "delve"] "explore",
  wordRule ["delving"] "exploring",
  wordRule ["leverages", "leveraged", "leverage"] "use",
  wordRule ["leveraging"] "using",
  wordRule ["utilizes", "utilized", "utilize"] "use",
  wordRule ["utilizing"] "using",
  wordRule ["moreover"] "also",
  wordRule ["furthermore"] "also",
  wordRule ["additionally"] "plus",
  wordRule ["hence"] "so",
  wordRule ["thus"] "so",
  wordRule ["unlocks", "unlocked", "unlocking", "unlock"] "discover",
  wordRule ["harnesses", "harnessed", "harnessing", "harness"] "use",
  wordRule ["seamlessly", "seamless"] "smooth",
  wordRule ["robust"] "strong",
  wordRule ["comprehensive"] "complete",
  { ci := true, bb := true, ba := true, trailWs := false, anchored := false,
    variants := litVariants
      [["embarks", "embarked", "embarking", "embark"], [" on "], ["a", "an"],
       [" "], ["epic ", ""], ["journey", "adventure"]],
    repl := "start your adventure".data },
  wordRule ["master the art of"] "learn",
  { ci := true, bb := true, ba := true, trailWs := false, anchored := false,
    variants := litVariants
      [["unleashs", "unleashed", "unleashing", "unleash"], [" your potential"]],
    repl := "improve your skills".data },
  { ci := true, bb := true, ba := true, trailWs := false, anchored := false,
    variants := litVariants
      [["elevates", "elevated", "elevate"], [" your "], ["gameplay", "experience"]],
    repl := "improve your game".data }]

/-- A hedge/filler removal rule: case-insensitive, no word boundaries,
replaced by the empty string. -/
def removeRule (gs : List (List String)) : RRule :=
  { ci := true, bb := false, ba := false, variants := litVariants gs,
    trailWs := false, anchored := false, repl := [] }

/-- `self.remove_phrases`, in list order. -/
def remove_phrases : List RRule := [
  removeRule [["it"], ["'", ""], ["s worth noting that "]],
  removeRule [["it is worth noting that "]],
  removeRule [["it"], ["'", ""], ["s important to note that "]],
  removeRule [["it is important to note that "]],
  removeRule [["generally speaking"], [",", ""], [" "]],
  removeRule [["in today"], ["'", ""], ["s digital landscape"], [",", ""], [" "]],
  removeRule [["in the world of "]],
  removeRule [["as we "], ["all ", ""], ["know"], [",", ""], [" "]],
  removeRule [["at the end of the day"], [",", ""], [" "]],
  removeRule [["the fact of the matter is"], [",", ""], [" "]]]

/-- `self.youtube_intro_phrases`: `^`-anchored, case-insensitive. -/
def youtube_intro_phrases : List RRule := [
  { ci := true, bb := false, ba := false, anchored := true, trailWs := false,
    variants := litVariants
      [["in this video"], [",", ""], [" "],
       ["we'll", "well", "we will", "i'll", "ill", "i will"], [" "]],
    repl := [] },
  { ci := true, bb := false, ba := false, anchored := true, trailWs := true,
    variants := litVariants
      [["welcome to "], ["this", "my"], [" "], ["video", "channel"], ["!", ".", ""]],
    repl := [] },
  { ci := true, bb := false, ba := false, anchored := true, trailWs := false,
    variants := litVariants
      [["today"], [",", ""], [" "],
       ["we're", "were", "we are", "i'm", "im", "i am"], [" going to "]],
    repl := [] },
  { ci := true, bb := false, ba := false, anchored := true, trailWs := true,
    variants := litVariants
      [["hey", "hi"], [" "], ["guys", "everyone", "folks"], [",", ""]],
    repl := [] }]

/-- The `subscribe_patterns` of `fix_youtube_description_tells`. -/
def subscribe_patterns : List RRule := [
  { ci := true, bb := false, ba := false, anchored := false, trailWs := true,
    variants := litVariants
      [["don"], ["'", ""], ["t forget to "], ["like and ", ""], ["subscribe"],
       ["!", ".", ""]],
    repl := [] },
  { ci := true, bb := false, ba := false, anchored := false, trailWs := true,
    variants := litVariants
      [["make sure to "], ["hit the ", ""], ["like button", "subscribe"],
       ["!", ".", ""]],
    repl := [] },
  { ci := true, bb := false, ba := false, anchored := false, trailWs := true,
    variants := litVariants
      [["remember to "], ["like and ", ""], ["subscribe"], ["!", ".", ""]],
    repl := [] }]

/-- `self.contractions`, in dict-insertion order. -/
def contractions : List RRule := [
  wordRule ["do not"] "don't",
  wordRule ["does not"] "doesn't",
  wordRule ["did not"] "didn't",
  wordRule ["cannot"] "can't",
  wordRule ["will not"] "won't",
  wordRule ["should not"] "shouldn't",
  wordRule ["would not"] "wouldn't",
  wordRule ["could not"] "couldn't",
  wordRule ["must not"] "mustn't",
  wordRule ["you are"] "you're",
  wordRule ["they are"] "they're",
  wordRule ["we are"] "we're",
  wordRule ["it is"] "it's",
  wordRule ["that is"] "that's",
  wordRule ["who is"] "who's",
  wordRule ["what is"] "what's",
  wordRule ["here is"] "here's",
  wordRule ["there is"] "there's",
  wordRule ["i am"] "I'm",
  wordRule ["you will"] "you'll",
  wordRule ["they will"] "they'll",
  wordRule ["we will"] "we'll",
  wordRule ["i will"] "I'll"]

/-- The all-caps buzzword rules of `fix_youtube_title_tells`:
case-SENSITIVE (`re.sub` is called without flags), `\bWORD\b\s*` → `''`. -/
def title_buzzwords : List RRule :=
  ["EPIC", "INCREDIBLE", "AMAZING", "UNBELIEVABLE", "INSANE", "CRAZY"].map
    (fun w =>
      { ci := false, bb := true, ba := true, variants := [[Seg.lit w.data]],
        trailWs := true, anchored := false, repl := [] })

/-- The generic-adjective rules of `fix_youtube_title_tells`:
`\badj\b\s+guide\b` → `guide`, case-insensitive. -/
def title_generic_adjectives : List RRule :=
  ["ultimate", "complete", "comprehensive", "definitive"].map
    (fun w =>
      { ci := true, bb := true, ba := true,
        variants := [[Seg.lit w.data, Seg.ws1, Seg.lit "guide".data]],
        trailWs := false, anchored := false, repl := "guide".data })

/-! ## Stage 1: `fix_punctuation_tells` -/

/-- `part[0].upper() + part[1:] if len(part) > 1 else part.upper()`. -/
def capPart (p : List Char) : List Char :=
  if 1 < p.length then
    match p with
    | c :: cs => pyUpperChar c :: cs
    | [] => []
  else p.map pyUpperChar

/-- The loop of the em-dash branch: strip each part, capitalize parts whose
original index is positive, keep the non-empty ones. -/
def dashParts : Nat → List (List Char) → List (List Char)
  | _, [] => []
  | i, p :: ps =>
    let p' := pyStrip p
    if p'.isEmpty then dashParts (i + 1) ps
    else (if 0 < i then capPart p' else p') :: dashParts (i + 1) ps

/-- The em-dash branch of `fix_punctuation_tells`. -/
def dashStage (l : List Char) : List Char :=
  joinSep ". ".data (dashParts 0 (splitOnChar '—' l))

def fix_punctuation_tells (l : List Char) : List Char :=
  let t := if l.contains '—' then dashStage l else l
  collapseRun '.' 3 "...".data
    (collapseRun '?' 2 "?".data
      (collapseRun '!' 2 "!".data t))

example : fix_punctuation_tells "Wow!!! Really??? Hmm.....".data
    = "Wow! Really? Hmm...".data := by decide

/-! ## Stages 2, 3, 5: word replacement, hedge removal, contractions -/

def replace_ai_word_choices (l : List Char) : List Char :=
  subRules word_replacements l

/-- `text = text[0].upper() + text[1:] if text and text[0].islower()`,
shared by `remove_hedging_language` and `fix_youtube_description_tells`. -/
def capFirstIfLower (l : List Char) : List Char :=
  match l with
  | [] => []
  | c :: cs => if pyIsLowerAlpha c then pyUpperChar c :: cs else c :: cs

def remove_hedging_language (l : List Char) : List Char :=
  capFirstIfLower (pyStrip (subRules remove_phrases l))

def add_contractions (l : List Char) : List Char :=
  subRules contractions l

/-! ## Stage 4: content-type specializers -/

def fix_youtube_title_tells (l : List Char) : List Char :=
  let t := collapseClass (fun c => c = '!' || c = '?') 2 [] l
  let t := if 30 < t.length then subRules title_buzzwords t else t
  if 40 < t.length then subRules title_generic_adjectives t else t

def fix_youtube_description_tells (l : List Char) : List Char :=
  let t := youtube_intro_phrases.foldl (fun t r => subAnchored r t) l
  let t := subRules subscribe_patterns t
  capFirstIfLower (pyStrip t)

/-! ## Stage 6: `clean_whitespace` -/

/-- `re.sub(r'\s+([!?.,;])\s+', r'\1 ', text)`: at each position, a maximal
whitespace run, one sentence punctuation mark, and a second maximal
whitespace run are rewritten to the mark plus a single space.  (Both `\s+`
are effectively maximal: a shorter split leaves whitespace where the next
element is required.)  On failure the scan advances one character. -/
def isSentPunct (c : Char) : Bool :=
  c = '!' || c = '?' || c = '.' || c = ',' || c = ';'

def subWsPunctWs : Nat → List Char → List Char
  | 0, l => l
  | _ + 1, [] => []
  | fuel + 1, x :: xs =>
    if pyIsSpace x then
      match (x :: xs).dropWhile pyIsSpace with
      | p :: rest2 =>
        if isSentPunct p then
          match rest2 with
          | r :: _ =>
            if pyIsSpace r then p :: ' ' :: subWsPunctWs fuel (rest2.dropWhile pyIsSpace)
            else x :: subWsPunctWs fuel xs
          | [] => x :: subWsPunctWs fuel xs
        else x :: subWsPunctWs fuel xs
      | [] => x :: subWsPunctWs fuel xs
    else x :: subWsPunctWs fuel xs

/-- `re.sub(r'\s+([!?.,;])$', r'\1', text, flags=re.MULTILINE)`: with
`MULTILINE`, `$` matches at the end of the text and immediately before
every newline. -/
def subWsPunctEol : Nat → List Char → List Char
  | 0, l => l
  | _ + 1, [] => []
  | fuel + 1, x :: xs =>
    if pyIsSpace x then
      match (x :: xs).dropWhile pyIsSpace with
      | p :: rest2 =>
        if isSentPunct p && (rest2.isEmpty || rest2.head? = some '\n') then
          p :: subWsPunctEol fuel rest2
        else x :: subWsPunctEol fuel xs
      | [] => x :: subWsPunctEol fuel xs
    else x :: subWsPunctEol fuel xs

/-- `re.sub(r'([.,!?;:])([A-Za-z])', add_space_after_punct, text)`: the
callback receives the punctuation mark and the single following letter and
keeps the pair as-is exactly when the mark is `'.'` and the letter is
lowercase (the source also tests `len(following) <= 4`, but group 2 is one
character, so that test is identically true). -/
def isPunctColon (c : Char) : Bool :=
  c = '.' || c = ',' || c = '!' || c = '?' || c = ';' || c = ':'

def subPunctLetter : List Char → List Char
  | [] => []
  | [c] => [c]
  | p :: c :: rest =>
    if isPunctColon p && isAsciiLetter c then
      (if p = '.' && pyIsLowerAlpha c && decide ([c].length ≤ 4)
       then p :: c :: subPunctLetter rest
       else p :: ' ' :: c :: subPunctLetter rest)
    else p :: subPunctLetter (c :: rest)

def clean_whitespace (l : List Char) : List Char :=
  let t := collapseRun ' ' 2 " ".data l
  let t := subWsPunctWs (t.length + 1) t
  let t := subWsPunctEol (t.length + 1) t
  let t := subPunctLetter t
  collapseRun '\n' 3 "\n\n".data t

example : clean_whitespace "word  ,  word".data = "word, word".data := by decide
example : clean_whitespace "end .".data = "end.".data := by decide

/-! ## The pipeline: `humanize` -/

def humanize (aggressive : Bool) (content_type : List Char) (text : List Char) :
    List Char :=
  if text.isEmpty || (pyStrip text).isEmpty then text
  else
    let t := fix_punctuation_tells text
    let t := replace_ai_word_choices t
    let t := remove_hedging_language t
    let t :=
      if content_type = "youtube_title".data then fix_youtube_title_tells t
      else if content_type = "youtube_description".data then
        fix_youtube_description_tells t
      else t
    let t := if aggressive then add_contractions t else t
    let t := clean_whitespace t
    pyStrip t

/-- `humanize_text(text, content_type, aggressive)`. -/
def humanize_text (text : List Char) (content_type : List Char := "general".data)
    (aggressive : Bool := false) : List Char :=
  humanize aggressive content_type text

/-- `humanize_title(title)`. -/
def humanize_title (l : List Char) : List Char :=
  humanize true "youtube_title".data l

/-- `humanize_description(description)`. -/
def humanize_description (l : List Char) : List Char :=
  humanize false "youtube_description".data l

/-! ## The Tell Detector: `detect_ai_tells` -/

/-- The heterogeneous second tuple component of a tell record: matched text
for word/hedging records, an occurrence count for the em-dash record. -/
inductive Ev where
  | str (s : List Char)
  | num (n : Nat)
deriving DecidableEq, Repr

/-- The `ai_words` list of `detect_ai_tells`. -/
def ai_words : List String :=
  ["delve", "leverage", "utilize", "moreover", "furthermore",
   "unlock", "harness", "seamless", "robust", "comprehensive"]

/-- The per-word pattern `\b word (?:s|d|ing)?\b` of `detect_ai_tells`. -/
def detectWordRule (w : String) : RRule :=
  wordRule [w ++ "s", w ++ "d", w ++ "ing", w] ""

/-- The `hedging` list of `detect_ai_tells`. -/
def hedging_phrases : List String :=
  ["it's worth noting", "generally speaking", "in today's digital landscape"]

def detect_ai_tells (l : List Char) : List (List Char × Ev) :=
  let tells := ai_words.foldl
    (fun acc w =>
      let ms := findAll (detectWordRule w) l
      if ms.isEmpty then acc
      else acc ++ ms.map (fun m => (w.data, Ev.str m))) []
  let tells :=
    if l.contains '—' then tells ++ [("em_dash".data, Ev.num (l.count '—'))]
    else tells
  hedging_phrases.foldl
    (fun acc p =>
      if containsSub p.data (l.map pyLowerChar) then
        acc ++ [("hedging".data, Ev.str p.data)]
      else acc) tells

/-- The word-match records in word-list order, one per occurrence. -/
def wordTellRecords (l : List Char) : List (List Char × Ev) :=
  ai_words.flatMap
    (fun w => (findAll (detectWordRule w) l).map (fun m => (w.data, Ev.str m)))

/-- The single aggregate em-dash record, when an em dash is present. -/
def dashTellRecords (l : List Char) : List (List Char × Ev) :=
  if l.contains '—' then [("em_dash".data, Ev.num (l.count '—'))] else []

/-- One record per hedging phrase found (not per occurrence), in list order. -/
def hedgeTellRecords (l : List Char) : List (List Char × Ev) :=
  (hedging_phrases.filter (fun p => containsSub p.data (l.map pyLowerChar))).map
    (fun p => ("hedging".data, Ev.str p.data))

/-! ## The pipeline with Python's fallible operations made explicit

`humanize` contains three character-indexing sites (`part[0]` in
`fix_punctuation_tells`, `text[0]` in `remove_hedging_language` and in
`fix_youtube_description_tells`), each of which would raise `IndexError` on
an empty string.  The `...Checked` functions model those indexings with
`pyIndex : List Char → Nat → Option Char` and propagate `none`. -/

def capPartChecked (p : List Char) : Option (List Char) :=
  if 1 < p.length then (pyIndex p 0).map (fun c => pyUpperChar c :: p.drop 1)
  else some (p.map pyUpperChar)

def dashPartsChecked : Nat → List (List Char) → Option (List (List Char))
  | _, [] => some []
  | i, p :: ps =>
    let p' := pyStrip p
    if p'.isEmpty then dashPartsChecked (i + 1) ps
    else
      match (if 0 < i then capPartChecked p' else some p') with
      | none => none
      | some q => (dashPartsChecked (i + 1) ps).map (fun r => q :: r)

def fix_punctuation_tellsChecked (l : List Char) : Option (List Char) :=
  let tOpt :=
    if l.contains '—' then
      (dashPartsChecked 0 (splitOnChar '—' l)).map (joinSep ". ".data)
    else some l
  tOpt.map (fun t =>
    collapseRun '.' 3 "...".data
      (collapseRun '?' 2 "?".data
        (collapseRun '!' 2 "!".data t)))

def capFirstIfLowerChecked (l : List Char) : Option (List Char) :=
  if l.isEmpty then some l
  else
    match pyIndex l 0 with
    | none => none
    | some c =>
      if pyIsLowerAlpha c then (pyIndex l 0).map (fun c0 => pyUpperChar c0 :: l.drop 1)
      else some l

def remove_hedging_languageChecked (l : List Char) : Option (List Char) :=
  capFirstIfLowerChecked (pyStrip (subRules remove_phrases l))

def fix_youtube_description_tellsChecked (l : List Char) : Option (List Char) :=
  let t := youtube_intro_phrases.foldl (fun t r => subAnchored r t) l
  let t := subRules subscribe_patterns t
  capFirstIfLowerChecked (pyStrip t)

def humanizeChecked (aggressive : Bool) (content_type : List Char)
    (text : List Char) : Option (List Char) :=
  if text.isEmpty || (pyStrip text).isEmpty then some text
  else
    (fix_punctuation_tellsChecked text).bind (fun t =>
      (remove_hedging_languageChecked (replace_ai_word_choices t)).bind (fun t =>
        (if content_type = "youtube_title".data then
            some (fix_youtube_title_tells t)
          else if content_type = "youtube_description".data then
            fix_youtube_description_tellsChecked t
          else some t).bind (fun t =>
          some (pyStrip (clean_whitespace
            (if aggressive then add_contractions t else t))))))

/-! ## Lemmas and theorems -/

theorem capPart_isEmpty (p : List Char) : (capPart p).isEmpty = p.isEmpty := by
  match p with
  | [] => rfl
  | c :: cs =>
    unfold capPart
    by_cases h : 1 < (c :: cs).length
    · rw [if_pos h]
      rfl
    · rw [if_neg h]
      rfl

/-- The em-dash segment handling, phrased as the specification words it:
trim every segment, force the first character of every segment after the
first to uppercase, and drop the segments that became empty. -/
def dashSpecParts (parts : List (List Char)) : List (List Char) :=
  match parts.map pyStrip with
  | [] => []
  | p :: ps => (p :: ps.map capPart).filter (fun q => !q.isEmpty)

theorem dashParts_pos (ps : List (List Char)) : ∀ i, 0 < i →
    dashParts i ps = ((ps.map pyStrip).map capPart).filter (fun q => !q.isEmpty) := by
  induction ps with
  | nil => intro i _; rfl
  | cons p ps ih =>
    intro i hi
    unfold dashParts
    by_cases h : (pyStrip p).isEmpty
    · rw [if_pos h]
      simp only [List.map_cons, List.filter_cons]
      have : (capPart (pyStrip p)).isEmpty = true := by rw [capPart_isEmpty]; exact h
      simp [this, ih (i + 1) (by omega)]
    · rw [if_neg h, if_pos hi]
      simp only [List.map_cons, List.filter_cons]
      have : (capPart (pyStrip p)).isEmpty = false := by
        rw [capPart_isEmpty]; simpa using h
      simp [this, ih (i + 1) (by omega)]

theorem dashParts_eq_spec (parts : List (List Char)) :
    dashParts 0 parts = dashSpecParts parts := by
  match parts with
  | [] => rfl
  | p :: ps =>
    unfold dashParts dashSpecParts
    simp only [List.map_cons]
    by_cases h : (pyStrip p).isEmpty
    · rw [if_pos h, List.filter_cons]
      simp [h, dashParts_pos ps 1 (by omega)]
    · rw [if_neg h, List.filter_cons]
      simp [h, dashParts_pos ps 1 (by omega)]

/-- C5: `fix_punctuation_tells` splits on the em dash, trims each segment,
uppercases the first character of every non-empty segment after the first,
drops segments that became empty, and rejoins with `". "`; on
`"This is a test — and it continues here"` it yields
`"This is a test. And it continues here"`. -/
theorem C5_em_dash_normalization :
    (∀ l : List Char,
      dashStage l = joinSep ". ".data (dashSpecParts (splitOnChar '—' l))) ∧
    fix_punctuation_tells "This is a test — and it continues here".data
      = "This is a test. And it continues here".data ∧
    fix_punctuation_tells "x — — y".data = "x. Y".data ∧
    fix_punctuation_tells "a —".data = "a".data ∧
    fix_punctuation_tells "— start".data = "Start".data := by
  refine ⟨fun l => ?_, by decide, by decide, by decide, by decide⟩
  unfold dashStage
  rw [dashParts_eq_spec]

/-- C7: an empty or whitespace-only input short-circuits `humanize`, which
returns it verbatim for every content type and aggressiveness flag. -/
theorem C7_empty_input_short_circuit (aggressive : Bool) (content_type : List Char)
    (text : List Char) (h : pyStrip text = []) :
    humanize aggressive content_type text = text := by
  unfold humanize
  rw [h]
  simp

theorem C7_empty_input_short_circuit_witness :
    pyStrip " \n\t ".data = [] ∧
    humanize true "youtube_title".data " \n\t ".data = " \n\t ".data :=
  ⟨by decide, C7_empty_input_short_circuit true "youtube_title".data " \n\t ".data (by decide)⟩

/-- C10: every content type other than `youtube_title` and
`youtube_description` (including `youtube_tags`, whose branch is `pass`)
skips the content-type stage, so `humanize` behaves as for `general`. -/
theorem C10_unknown_content_type_is_general (aggressive : Bool)
    (content_type text : List Char)
    (h1 : content_type ≠ "youtube_title".data)
    (h2 : content_type ≠ "youtube_description".data) :
    humanize aggressive content_type text = humanize aggressive "general".data text := by
  unfold humanize
  by_cases he : (text.isEmpty || (pyStrip text).isEmpty) = true
  · rw [if_pos he, if_pos he]
  · rw [if_neg he, if_neg he]
    simp only [if_neg h1, if_neg h2,
      if_neg (by decide : ¬("general".data = "youtube_title".data)),
      if_neg (by decide : ¬("general".data = "youtube_description".data))]

theorem C10_unknown_content_type_is_general_witness :
    ("youtube_tags".data ≠ "youtube_title".data) ∧
    ("title".data ≠ "youtube_title".data) ∧
    humanize false "youtube_tags".data "We delve — moreover!!!".data
      = humanize false "general".data "We delve — moreover!!!".data ∧
    humanize true "title".data "We delve — moreover!!!".data
      = humanize true "general".data "We delve — moreover!!!".data :=
  ⟨by decide, by decide,
   C10_unknown_content_type_is_general false "youtube_tags".data
     "We delve — moreover!!!".data (by decide) (by decide),
   C10_unknown_content_type_is_general true "title".data
     "We delve — moreover!!!".data (by decide) (by decide)⟩

/-- C1 counterexample: the guard of `add_space_after_punct` inspects a
single captured letter, so after `'.'` no space is ever inserted before a
lowercase letter — even when the following lowercase run is longer than 4,
where the claim asserts a space IS inserted. -/
theorem C1_counterexample :
    clean_whitespace "word.wonderful".data = "word.wonderful".data ∧
    "word.wonderful".data ≠ "word. wonderful".data := ⟨by decide, by decide⟩

/-- C1 (amended): a single space is inserted after a punctuation mark
`[.,!?;:]` immediately followed by a letter, except that nothing is
inserted after `'.'` whenever the immediately following character is a
lowercase letter — the guard looks at one character only (its length-≤-4
test is identically true), regardless of how long the following lowercase
run is.  `"file.txt"` is unchanged, and so is `"word.wonderful"`; a space
IS inserted in `"word.Next"` and after the other punctuation marks. -/
theorem C1_space_after_punct_guard :
    (∀ (c : Char) (rest : List Char), pyIsLowerAlpha c = true →
      subPunctLetter ('.' :: c :: rest) = '.' :: c :: subPunctLetter rest) ∧
    (∀ (c : Char) (rest : List Char), pyIsUpperAlpha c = true →
      subPunctLetter ('.' :: c :: rest) = '.' :: ' ' :: c :: subPunctLetter rest) ∧
    clean_whitespace "file.txt".data = "file.txt".data ∧
    clean_whitespace "word.Next".data = "word. Next".data ∧
    clean_whitespace "word.wonderful".data = "word.wonderful".data ∧
    clean_whitespace "a,b!c?d;e:f".data = "a, b! c? d; e: f".data := by
  refine ⟨fun c rest h => ?_, fun c rest h => ?_, by decide, by decide, by decide, by decide⟩
  · have hl : isAsciiLetter c = true := by simp [isAsciiLetter, h]
    simp [subPunctLetter, isPunctColon, hl, h]
  · have hl : isAsciiLetter c = true := by simp [isAsciiLetter, h]
    have hnotlow : pyIsLowerAlpha c = false := by
      simp only [pyIsUpperAlpha, Bool.and_eq_true, decide_eq_true_eq] at h
      simp only [pyIsLowerAlpha, Bool.and_eq_false_iff]
      left
      simpa using by omega
    simp [subPunctLetter, isPunctColon, hl, hnotlow]

theorem C1_space_after_punct_guard_witness :
    subPunctLetter ('.' :: 'w' :: "onderful".data)
      = '.' :: 'w' :: subPunctLetter "onderful".data ∧
    subPunctLetter ('.' :: 'N' :: "ext".data)
      = '.' :: ' ' :: 'N' :: subPunctLetter "ext".data :=
  ⟨C1_space_after_punct_guard.1 'w' "onderful".data (by decide),
   C1_space_after_punct_guard.2.1 'N' "ext".data (by decide)⟩

/-- C2 counterexample: `remove_hedging_language` uppercases only the first
character of the whole text, so the mid-text `"we"` that followed the
deleted `"Generally speaking, "` stays lowercase and the output differs
from the claimed `"This is important. We should proceed."`. -/
theorem C2_counterexample :
    remove_hedging_language
      "It's worth noting that this is important. Generally speaking, we should proceed.".data
      = "This is important. we should proceed.".data ∧
    "This is important. we should proceed.".data
      ≠ "This is important. We should proceed.".data := ⟨by decide, by decide⟩

/-- C2 (amended): on the documented input every hedge phrase is deleted
wherever it occurs and the first character of the trimmed result is forced
to uppercase, giving `"This is important. we should proceed."` — the word
following the second deleted hedge is NOT re-capitalized. -/
theorem C2_hedge_removal_example :
    remove_hedging_language
      "It's worth noting that this is important. Generally speaking, we should proceed.".data
      = "This is important. we should proceed.".data ∧
    (remove_hedging_language
      "It's worth noting that this is important. Generally speaking, we should proceed.".data).head?
      = some 'T' ∧
    containsSub "worth noting".data
      ((remove_hedging_language
        "It's worth noting that this is important. Generally speaking, we should proceed.".data).map
        pyLowerChar) = false ∧
    containsSub "generally speaking".data
      ((remove_hedging_language
        "It's worth noting that this is important. Generally speaking, we should proceed.".data).map
        pyLowerChar) = false := ⟨by decide, by decide, by decide, by decide⟩

set_option maxRecDepth 100000 in
/-- C4 counterexample: in title mode the pipeline output on the documented
input still contains the all-caps `"ULTIMATE"`, still ends in a terminal
`'!'`, and no superlative+guide collapse occurred (the uppercase `"GUIDE"`
of `"GAMING GUIDE."` survives), contradicting the claim. -/
theorem C4_counterexample :
    humanize true "youtube_title".data
      "EPIC GAMING GUIDE — The ULTIMATE Comprehensive Tutorial!!!".data
      = "GAMING GUIDE. The ULTIMATE complete Tutorial!".data ∧
    containsSub "ULTIMATE".data
      "GAMING GUIDE. The ULTIMATE complete Tutorial!".data = true ∧
    containsSub "GUIDE".data
      "GAMING GUIDE. The ULTIMATE complete Tutorial!".data = true ∧
    ("GAMING GUIDE. The ULTIMATE complete Tutorial!".data).getLast?
      = some '!' := ⟨by decide, by decide, by decide, by decide⟩

set_option maxRecDepth 100000 in
/-- C4 (amended): title mode on the documented input yields exactly
`"GAMING GUIDE. The ULTIMATE complete Tutorial!"` for both aggressiveness
flags: `EPIC` (the only listed buzzword present) is removed, the
punctuation stage collapses `!!!` to a single `'!'` before the title stage
runs (so no 2+ terminal run remains, but one `'!'` does), the lexical
stage rewrites `Comprehensive` to `complete`, `ULTIMATE` survives, and the
superlative+guide collapse does not fire because the em-dash split
separated `ULTIMATE` from `GUIDE`. -/
theorem C4_title_mode_example :
    humanize false "youtube_title".data
      "EPIC GAMING GUIDE — The ULTIMATE Comprehensive Tutorial!!!".data
      = "GAMING GUIDE. The ULTIMATE complete Tutorial!".data ∧
    humanize true "youtube_title".data
      "EPIC GAMING GUIDE — The ULTIMATE Comprehensive Tutorial!!!".data
      = "GAMING GUIDE. The ULTIMATE complete Tutorial!".data ∧
    containsSub "EPIC".data
      "GAMING GUIDE. The ULTIMATE complete Tutorial!".data = false ∧
    containsSub "!!".data
      "GAMING GUIDE. The ULTIMATE complete Tutorial!".data = false := by
  exact ⟨by decide, by decide, by decide, by decide⟩

/-- C6: every replacement rule carries word boundaries on both sides and
matches case-insensitively.  No rule of the table matches at a position
where `"delver"` begins — whatever follows — so the `"delve"` inside
`"delver"` is never rewritten, while free-standing inflected and
differently-cased occurrences are. -/
theorem C6_word_boundary_substitution :
    (∀ rest : List Char, word_replacements.all
      (fun r => (matchRuleAt r ("delver".data ++ rest)).isNone) = true) ∧
    replace_ai_word_choices "The delver delves into DELVING deeply".data
      = "The delver explore into exploring deeply".data ∧
    replace_ai_word_choices "thusly robust ROBUSTNESS".data
      = "thusly strong ROBUSTNESS".data ∧
    replace_ai_word_choices "adelve delve".data = "adelve explore".data :=
  ⟨fun _ => rfl, by decide, by decide, by decide⟩

theorem isEmpty_map_eq {α β : Type} (f : α → β) (l : List α) :
    (l.map f).isEmpty = l.isEmpty := by
  cases l <;> rfl

theorem foldl_append_if_isEmpty {α β : Type} (f : α → List β) :
    ∀ (xs : List α) (acc : List β),
      xs.foldl (fun a x => if (f x).isEmpty then a else a ++ f x) acc
        = acc ++ xs.flatMap f := by
  intro xs
  induction xs with
  | nil => intro acc; simp
  | cons x xs ih =>
    intro acc
    simp only [List.foldl_cons, List.flatMap_cons]
    by_cases h : (f x).isEmpty
    · rw [if_pos h, ih]
      rw [List.isEmpty_iff] at h
      simp [h]
    · rw [if_neg h, ih, List.append_assoc]

theorem foldl_append_if_filter {α β : Type} (P : α → Bool) (g : α → β) :
    ∀ (xs : List α) (acc : List β),
      xs.foldl (fun a x => if P x then a ++ [g x] else a) acc
        = acc ++ (xs.filter P).map g := by
  intro xs
  induction xs with
  | nil => intro acc; simp
  | cons x xs ih =>
    intro acc
    simp only [List.foldl_cons, List.filter_cons]
    by_cases h : P x
    · rw [if_pos h, ih, h]
      simp
    · rw [if_neg h, ih]
      simp [h]

/-- C9: `detect_ai_tells` returns exactly the per-occurrence word records
in word-list order, then the single aggregate em-dash record when an em
dash is present, then one record per hedging phrase found
(case-insensitively, once per phrase type), in list order; it is a pure
function of the unmodified input. -/
theorem C9_detect_tells_order :
    (∀ l : List Char, detect_ai_tells l
      = wordTellRecords l ++ dashTellRecords l ++ hedgeTellRecords l) ∧
    detect_ai_tells "Delve and delves — leverage!! It's worth noting that seamless.".data
      = [("delve".data, Ev.str "Delve".data), ("delve".data, Ev.str "delves".data),
         ("leverage".data, Ev.str "leverage".data),
         ("seamless".data, Ev.str "seamless".data),
         ("em_dash".data, Ev.num 1),
         ("hedging".data, Ev.str "it's worth noting".data)] := by
  constructor
  · intro l
    have h1 : ai_words.foldl
        (fun acc w =>
          if (findAll (detectWordRule w) l).isEmpty then acc
          else acc ++ (findAll (detectWordRule w) l).map (fun m => (w.data, Ev.str m))) []
        = wordTellRecords l := by
      have h2 := foldl_append_if_isEmpty
        (fun w : String => (findAll (detectWordRule w) l).map (fun m => (w.data, Ev.str m)))
        ai_words []
      simp only [List.nil_append, isEmpty_map_eq] at h2
      exact h2
    unfold detect_ai_tells
    simp only [isEmpty_map_eq]
    by_cases hd : l.contains '—'
    · simp only [hd, if_true, h1,
        foldl_append_if_filter (fun p : String => containsSub p.data (l.map pyLowerChar))
          (fun p => ("hedging".data, Ev.str p.data)) hedging_phrases,
        dashTellRecords, hedgeTellRecords, List.append_assoc]
    · simp only [hd, if_false, Bool.false_eq_true, h1,
        foldl_append_if_filter (fun p : String => containsSub p.data (l.map pyLowerChar))
          (fun p => ("hedging".data, Ev.str p.data)) hedging_phrases,
        dashTellRecords, hedgeTellRecords, List.append_assoc, List.append_nil]
  · decide

theorem capPartChecked_eq (p : List Char) : capPartChecked p = some (capPart p) := by
  cases p with
  | nil => rfl
  | cons c cs =>
    unfold capPartChecked capPart
    by_cases h : 1 < (c :: cs).length
    · rw [if_pos h, if_pos h]
      rfl
    · rw [if_neg h, if_neg h]

theorem dashPartsChecked_eq (ps : List (List Char)) : ∀ i : Nat,
    dashPartsChecked i ps = some (dashParts i ps) := by
  induction ps with
  | nil => intro i; rfl
  | cons p ps ih =>
    intro i
    unfold dashPartsChecked dashParts
    by_cases h : (pyStrip p).isEmpty
    · rw [if_pos h, if_pos h]
      exact ih (i + 1)
    · rw [if_neg h, if_neg h]
      by_cases hi : 0 < i
      · rw [if_pos hi, if_pos hi, capPartChecked_eq]
        simp [ih (i + 1)]
      · rw [if_neg hi, if_neg hi]
        simp [ih (i + 1)]

theorem fix_punctuation_tellsChecked_eq (l : List Char) :
    fix_punctuation_tellsChecked l = some (fix_punctuation_tells l) := by
  unfold fix_punctuation_tellsChecked fix_punctuation_tells dashStage
  dsimp only
  by_cases h : l.contains '—'
  · rw [if_pos h, if_pos h, dashPartsChecked_eq]
    rfl
  · rw [if_neg h, if_neg h]
    rfl

theorem capFirstIfLowerChecked_eq (l : List Char) :
    capFirstIfLowerChecked l = some (capFirstIfLower l) := by
  cases l with
  | nil => rfl
  | cons c cs =>
    unfold capFirstIfLowerChecked capFirstIfLower
    by_cases h : pyIsLowerAlpha c
    · simp [pyIndex, h]
    · simp [pyIndex, h]

theorem remove_hedging_languageChecked_eq (l : List Char) :
    remove_hedging_languageChecked l = some (remove_hedging_language l) := by
  unfold remove_hedging_languageChecked remove_hedging_language
  exact capFirstIfLowerChecked_eq _

theorem fix_youtube_description_tellsChecked_eq (l : List Char) :
    fix_youtube_description_tellsChecked l = some (fix_youtube_description_tells l) := by
  unfold fix_youtube_description_tellsChecked fix_youtube_description_tells
  exact capFirstIfLowerChecked_eq _

/-- C8: with Python's three fallible character indexings modelled in
`Option`, the pipeline always succeeds: for every input string, every
content type and both aggressiveness flags, the checked pipeline returns
`some` of the total embedding's result.  The regex substitutions are total
scanners, so no other step of any stage can fail. -/
theorem C8_pipeline_never_fails (aggressive : Bool) (content_type text : List Char) :
    humanizeChecked aggressive content_type text
      = some (humanize aggressive content_type text) := by
  unfold humanizeChecked humanize
  by_cases he : (text.isEmpty || (pyStrip text).isEmpty) = true
  · rw [if_pos he, if_pos he]
  · rw [if_neg he, if_neg he]
    dsimp only
    rw [fix_punctuation_tellsChecked_eq, Option.some_bind,
      remove_hedging_languageChecked_eq, Option.some_bind]
    by_cases h1 : content_type = "youtube_title".data
    · rw [if_pos h1, if_pos h1, Option.some_bind]
    · rw [if_neg h1, if_neg h1]
      by_cases h2 : content_type = "youtube_description".data
      · rw [if_pos h2, if_pos h2, fix_youtube_description_tellsChecked_eq,
          Option.some_bind]
      · rw [if_neg h2, if_neg h2, Option.some_bind]

/-- C3 counterexample: neither the Whitespace Normalizer nor the Hedge
Remover is idempotent.  `clean_whitespace "a ! ! b" = "a! ! b"`, whose
second application gives `"a!! b"`; deleting a hedge phrase can splice a
new hedge occurrence that only a second pass removes. -/
theorem C3_counterexample :
    clean_whitespace (clean_whitespace "a ! ! b".data)
      ≠ clean_whitespace "a ! ! b".data ∧
    remove_hedging_language
        (remove_hedging_language "It's worth notIt's worth noting that ing that x".data)
      ≠ remove_hedging_language "It's worth notIt's worth noting that ing that x".data :=
  ⟨by decide, by decide⟩

/-! ## Run-boundedness machinery for the idempotence of
`fix_punctuation_tells` -/

/-- `runsLeAux c b k l`: scanning `l` with a pending run of `k` copies of
`c`, every maximal run of `c` has length at most `b`. -/
def runsLeAux (c : Char) (b : Nat) : Nat → List Char → Bool
  | k, [] => decide (k ≤ b)
  | k, x :: xs =>
    if x = c then runsLeAux c b (k + 1) xs
    else decide (k ≤ b) && runsLeAux c b 0 xs

theorem runsLeAux_nil (c : Char) (b k : Nat) :
    runsLeAux c b k [] = decide (k ≤ b) := rfl

theorem runsLeAux_cons (c : Char) (b k : Nat) (x : Char) (xs : List Char) :
    runsLeAux c b k (x :: xs)
      = if x = c then runsLeAux c b (k + 1) xs
        else decide (k ≤ b) && runsLeAux c b 0 xs := rfl

theorem runsLeAux_replicate_append (c : Char) (b : Nat) :
    ∀ (i a : Nat) (t : List Char),
      runsLeAux c b a (List.replicate i c ++ t) = runsLeAux c b (a + i) t := by
  intro i
  induction i with
  | zero => intro a t; rfl
  | succ i ih =>
    intro a t
    rw [List.replicate_succ, List.cons_append, runsLeAux_cons, if_pos rfl, ih (a + 1) t]
    have h3 : a + 1 + i = a + (i + 1) := by omega
    rw [h3]

theorem runsLeAux_append_nonc (c : Char) (b : Nat) :
    ∀ (s : List Char), (∀ a ∈ s, a ≠ c) → s ≠ [] →
      ∀ (j : Nat) (t : List Char),
        runsLeAux c b j (s ++ t) = (decide (j ≤ b) && runsLeAux c b 0 t) := by
  intro s
  induction s with
  | nil => intro _ hne; exact absurd rfl hne
  | cons y s ih =>
    intro hs _ j t
    have hy : y ≠ c := hs y (List.mem_cons_self y s)
    rw [List.cons_append, runsLeAux_cons, if_neg hy]
    cases s with
    | nil => rfl
    | cons z s' =>
      rw [ih (fun a ha => hs a (List.mem_cons_of_mem y ha)) (by simp) 0 t]
      simp

theorem runEmit_all_ne (c c' : Char) (m : Nat) (r : List Char)
    (hcc : c ≠ c') (hr : ∀ a ∈ r, a ≠ c') (k : Nat) :
    ∀ a ∈ runEmit c m r k, a ≠ c' := by
  intro a ha
  unfold runEmit at ha
  by_cases h0 : k = 0
  · rw [if_pos h0] at ha
    exact absurd ha (List.not_mem_nil a)
  · rw [if_neg h0] at ha
    by_cases hm : m ≤ k
    · rw [if_pos hm] at ha
      exact hr a ha
    · rw [if_neg hm] at ha
      rw [List.eq_of_mem_replicate ha]
      exact hcc

theorem runEmit_ne_nil (c : Char) (m : Nat) (r : List Char)
    (hne : r ≠ []) (k : Nat) (hk : k ≠ 0) : runEmit c m r k ≠ [] := by
  unfold runEmit
  rw [if_neg hk]
  by_cases hm : m ≤ k
  · rw [if_pos hm]; exact hne
  · rw [if_neg hm]
    simp [hk]

theorem collapseAux_nil (c : Char) (m : Nat) (r : List Char) (k : Nat) :
    collapseAux c m r k [] = runEmit c m r k := rfl

theorem collapseAux_cons (c : Char) (m : Nat) (r : List Char) (k : Nat)
    (x : Char) (xs : List Char) :
    collapseAux c m r k (x :: xs)
      = if x = c then collapseAux c m r (k + 1) xs
        else runEmit c m r k ++ x :: collapseAux c m r 0 xs := rfl

/-- Collapsing `m`-or-longer runs of `c` into `j ≤ b` copies of `c` (with
`m ≤ b + 1`) leaves every `c`-run of the output of length at most `b`. -/
theorem collapse_establishes (c : Char) (b j m : Nat) (hm : m ≤ b + 1)
    (hjb : j ≤ b) :
    ∀ (l : List Char) (k : Nat),
      runsLeAux c b 0 (collapseAux c m (List.replicate j c) k l) = true := by
  intro l
  induction l with
  | nil =>
    intro k
    rw [collapseAux_nil]
    unfold runEmit
    by_cases h0 : k = 0
    · rw [if_pos h0]
      simp [runsLeAux_nil]
    · rw [if_neg h0]
      by_cases hmk : m ≤ k
      · rw [if_pos hmk]
        have := runsLeAux_replicate_append c b j 0 []
        rw [List.append_nil] at this
        rw [this, runsLeAux_nil]
        simpa using hjb
      · rw [if_neg hmk]
        have := runsLeAux_replicate_append c b k 0 []
        rw [List.append_nil] at this
        rw [this, runsLeAux_nil]
        simp only [Nat.zero_add, decide_eq_true_eq]
        omega
  | cons x xs ih =>
    intro k
    rw [collapseAux_cons]
    by_cases hx : x = c
    · rw [if_pos hx]
      exact ih (k + 1)
    · rw [if_neg hx]
      unfold runEmit
      by_cases h0 : k = 0
      · rw [if_pos h0]
        simp only [List.nil_append, runsLeAux_cons, if_neg hx]
        simp [ih 0]
      · rw [if_neg h0]
        by_cases hmk : m ≤ k
        · rw [if_pos hmk, runsLeAux_replicate_append c b j 0, Nat.zero_add,
            runsLeAux_cons, if_neg hx]
          simp [hjb, ih 0]
        · rw [if_neg hmk, runsLeAux_replicate_append c b k 0, Nat.zero_add,
            runsLeAux_cons, if_neg hx]
          have : k ≤ b := by omega
          simp [this, ih 0]

/-- When every pending run is emitted verbatim (`runEmit` is `replicate`
below the bound), collapsing is the identity on run-bounded input. -/
theorem collapse_id (c : Char) (b m : Nat) (r : List Char)
    (hre : ∀ k, k ≤ b → runEmit c m r k = List.replicate k c) :
    ∀ (l : List Char) (k : Nat), runsLeAux c b k l = true →
      collapseAux c m r k l = List.replicate k c ++ l := by
  intro l
  induction l with
  | nil =>
    intro k hk
    rw [runsLeAux_nil, decide_eq_true_eq] at hk
    rw [collapseAux_nil, hre k hk, List.append_nil]
  | cons x xs ih =>
    intro k hk
    rw [runsLeAux_cons] at hk
    rw [collapseAux_cons]
    by_cases hx : x = c
    · rw [if_pos hx] at hk
      rw [if_pos hx, ih (k + 1) hk, hx]
      rw [List.replicate_succ' k c]
      simp
    · rw [if_neg hx] at hk
      rw [Bool.and_eq_true, decide_eq_true_eq] at hk
      rw [if_neg hx, hre k hk.1, ih 0 hk.2]
      rfl

/-- Collapsing runs of `c` preserves a run bound for a different character
`c'`, provided the replacement is non-empty and free of `c'`. -/
theorem collapse_preserves (c c' : Char) (m : Nat) (r : List Char)
    (hcc : c ≠ c') (hr : ∀ a ∈ r, a ≠ c') (hne : r ≠ []) (b' : Nat) :
    ∀ (l : List Char) (k j : Nat),
      (if k = 0 then runsLeAux c' b' j l
       else decide (j ≤ b') && runsLeAux c' b' 0 l) = true →
      runsLeAux c' b' j (collapseAux c m r k l) = true := by
  intro l
  induction l with
  | nil =>
    intro k j hk
    rw [collapseAux_nil]
    by_cases h0 : k = 0
    · rw [if_pos h0] at hk
      rw [h0]
      unfold runEmit
      rw [if_pos rfl]
      rw [runsLeAux_nil] at hk ⊢
      exact hk
    · rw [if_neg h0, Bool.and_eq_true] at hk
      have hemit := runsLeAux_append_nonc c' b'
        (runEmit c m r k) (runEmit_all_ne c c' m r hcc hr k)
        (runEmit_ne_nil c m r hne k h0) j []
      rw [List.append_nil] at hemit
      rw [hemit, runsLeAux_nil]
      simp [hk.1]
  | cons x xs ih =>
    intro k j hk
    rw [collapseAux_cons]
    by_cases hx : x = c
    · rw [if_pos hx]
      apply ih (k + 1) j
      rw [if_neg (Nat.succ_ne_zero k), Bool.and_eq_true]
      by_cases h0 : k = 0
      · rw [if_pos h0] at hk
        rw [runsLeAux_cons, if_neg (by rw [hx]; exact hcc),
          Bool.and_eq_true] at hk
        exact hk
      · rw [if_neg h0, Bool.and_eq_true] at hk
        refine ⟨hk.1, ?_⟩
        have h2 := hk.2
        rw [runsLeAux_cons, if_neg (by rw [hx]; exact hcc),
          Bool.and_eq_true] at h2
        exact h2.2
    · rw [if_neg hx]
      by_cases h0 : k = 0
      · rw [if_pos h0] at hk
        rw [h0]
        unfold runEmit
        rw [if_pos rfl, List.nil_append]
        by_cases hxc : x = c'
        · rw [runsLeAux_cons, if_pos hxc] at hk ⊢
          apply ih 0 (j + 1)
          rw [if_pos rfl]
          exact hk
        · rw [runsLeAux_cons, if_neg hxc, Bool.and_eq_true] at hk ⊢
          refine ⟨hk.1, ?_⟩
          apply ih 0 0
          rw [if_pos rfl]
          exact hk.2
      · rw [if_neg h0, Bool.and_eq_true] at hk
        rw [runsLeAux_append_nonc c' b'
          (runEmit c m r k) (runEmit_all_ne c c' m r hcc hr k)
          (runEmit_ne_nil c m r hne k h0) j _, Bool.and_eq_true]
        refine ⟨hk.1, ?_⟩
        have h2 := hk.2
        by_cases hxc : x = c'
        · rw [runsLeAux_cons, if_pos hxc] at h2 ⊢
          apply ih 0 1
          rw [if_pos rfl]
          exact h2
        · rw [runsLeAux_cons, if_neg hxc, Bool.and_eq_true] at h2 ⊢
          refine ⟨by simp, ?_⟩
          apply ih 0 0
          rw [if_pos rfl]
          exact h2.2

theorem mem_collapseAux (c : Char) (m : Nat) (r : List Char) :
    ∀ (l : List Char) (k : Nat) (a : Char),
      a ∈ collapseAux c m r k l → a ∈ r ∨ a = c ∨ a ∈ l := by
  intro l
  induction l with
  | nil =>
    intro k a ha
    rw [collapseAux_nil] at ha
    unfold runEmit at ha
    by_cases h0 : k = 0
    · rw [if_pos h0] at ha
      exact absurd ha (List.not_mem_nil a)
    · rw [if_neg h0] at ha
      by_cases hm : m ≤ k
      · rw [if_pos hm] at ha
        exact Or.inl ha
      · rw [if_neg hm] at ha
        exact Or.inr (Or.inl (List.eq_of_mem_replicate ha))
  | cons x xs ih =>
    intro k a ha
    rw [collapseAux_cons] at ha
    by_cases hx : x = c
    · rw [if_pos hx] at ha
      rcases ih (k + 1) a ha with h | h | h
      · exact Or.inl h
      · exact Or.inr (Or.inl h)
      · exact Or.inr (Or.inr (List.mem_cons_of_mem x h))
    · rw [if_neg hx, List.mem_append] at ha
      rcases ha with ha | ha
      · unfold runEmit at ha
        by_cases h0 : k = 0
        · rw [if_pos h0] at ha
          exact absurd ha (List.not_mem_nil a)
        · rw [if_neg h0] at ha
          by_cases hm : m ≤ k
          · rw [if_pos hm] at ha
            exact Or.inl ha
          · rw [if_neg hm] at ha
            exact Or.inr (Or.inl (List.eq_of_mem_replicate ha))
      · rcases List.mem_cons.mp ha with ha | ha
        · exact Or.inr (Or.inr (ha ▸ List.mem_cons_self x xs))
        · rcases ih 0 a ha with h | h | h
          · exact Or.inl h
          · exact Or.inr (Or.inl h)
          · exact Or.inr (Or.inr (List.mem_cons_of_mem x h))

theorem mem_of_mem_splitOnChar (c : Char) :
    ∀ (l : List Char) (p : List Char), p ∈ splitOnChar c l →
      ∀ a ∈ p, a ∈ l ∧ a ≠ c := by
  intro l
  induction l with
  | nil =>
    intro p hp a ha
    unfold splitOnChar at hp
    rcases List.mem_cons.mp hp with h | h
    · rw [h] at ha
      exact absurd ha (List.not_mem_nil a)
    · exact absurd h (List.not_mem_nil p)
  | cons x xs ih =>
    intro p hp a ha
    unfold splitOnChar at hp
    by_cases hx : x = c
    · rw [if_pos hx] at hp
      rcases List.mem_cons.mp hp with h | h
      · rw [h] at ha
        exact absurd ha (List.not_mem_nil a)
      · have := ih p h a ha
        exact ⟨List.mem_cons_of_mem x this.1, this.2⟩
    · rw [if_neg hx] at hp
      rcases hr : splitOnChar c xs with _ | ⟨p0, ps⟩
      · rw [hr] at hp
        rcases List.mem_cons.mp hp with h | h
        · rw [h] at ha
          rcases List.mem_cons.mp ha with h2 | h2
          · exact ⟨h2 ▸ List.mem_cons_self x xs, h2 ▸ hx⟩
          · exact absurd h2 (List.not_mem_nil a)
        · exact absurd h (List.not_mem_nil p)
      · rw [hr] at hp
        rcases List.mem_cons.mp hp with h | h
        · rw [h] at ha
          rcases List.mem_cons.mp ha with h2 | h2
          · exact ⟨h2 ▸ List.mem_cons_self x xs, h2 ▸ hx⟩
          · have := ih p0 (hr ▸ List.mem_cons_self p0 ps) a h2
            exact ⟨List.mem_cons_of_mem x this.1, this.2⟩
        · have := ih p (hr ▸ List.mem_cons_of_mem p0 h) a ha
          exact ⟨List.mem_cons_of_mem x this.1, this.2⟩

theorem mem_of_mem_pyStrip (l : List Char) (a : Char) (ha : a ∈ pyStrip l) :
    a ∈ l := by
  unfold pyStrip at ha
  rw [List.mem_reverse] at ha
  have h1 := ((l.dropWhile pyIsSpace).reverse.dropWhile_sublist pyIsSpace).mem ha
  rw [List.mem_reverse] at h1
  exact (l.dropWhile_sublist pyIsSpace).mem h1

theorem pyUpperChar_toNat_of_lower (ch : Char) (h1 : 97 ≤ ch.toNat)
    (h2 : ch.toNat ≤ 122) : (pyUpperChar ch).toNat = ch.toNat - 32 := by
  unfold pyUpperChar
  rw [if_pos ⟨h1, h2⟩, Char.ofNat, dif_pos]
  · rfl
  · exact Or.inl (by omega)

theorem pyUpperChar_ne_dash (ch : Char) (h : ch ≠ '—') : pyUpperChar ch ≠ '—' := by
  by_cases hr : 97 ≤ ch.toNat ∧ ch.toNat ≤ 122
  · intro he
    have ht := pyUpperChar_toNat_of_lower ch hr.1 hr.2
    rw [he] at ht
    have hd : ('—').toNat = 8212 := by decide
    rw [hd] at ht
    omega
  · unfold pyUpperChar
    rw [if_neg hr]
    exact h

theorem mem_capPart (p : List Char) (a : Char) (ha : a ∈ capPart p) :
    ∃ b ∈ p, a = pyUpperChar b ∨ a = b := by
  unfold capPart at ha
  by_cases h : 1 < p.length
  · rw [if_pos h] at ha
    match p, ha with
    | c :: cs, ha =>
      rcases List.mem_cons.mp ha with h2 | h2
      · exact ⟨c, List.mem_cons_self c cs, Or.inl h2⟩
      · exact ⟨a, List.mem_cons_of_mem c h2, Or.inr rfl⟩
  · rw [if_neg h] at ha
    rcases List.mem_map.mp ha with ⟨b, hb, he⟩
    exact ⟨b, hb, Or.inl he.symm⟩

theorem mem_joinSep (sep : List Char) :
    ∀ (parts : List (List Char)) (a : Char), a ∈ joinSep sep parts →
      a ∈ sep ∨ ∃ p ∈ parts, a ∈ p := by
  intro parts
  induction parts with
  | nil =>
    intro a ha
    exact absurd ha (List.not_mem_nil a)
  | cons p ps ih =>
    intro a ha
    cases ps with
    | nil =>
      exact Or.inr ⟨p, List.mem_cons_self p [], ha⟩
    | cons q qs =>
      have hj : joinSep sep (p :: q :: qs) = p ++ sep ++ joinSep sep (q :: qs) := rfl
      rw [hj, List.append_assoc, List.mem_append] at ha
      rcases ha with ha | ha
      · exact Or.inr ⟨p, List.mem_cons_self p _, ha⟩
      · rw [List.mem_append] at ha
        rcases ha with ha | ha
        · exact Or.inl ha
        · rcases ih a ha with h | ⟨r, hr, har⟩
          · exact Or.inl h
          · exact Or.inr ⟨r, List.mem_cons_of_mem p hr, har⟩

theorem dashParts_no_dash :
    ∀ (ps : List (List Char)) (i : Nat), (∀ q ∈ ps, '—' ∉ q) →
      ∀ p ∈ dashParts i ps, '—' ∉ p := by
  intro ps
  induction ps with
  | nil =>
    intro i _ p hp
    exact absurd hp (List.not_mem_nil p)
  | cons q qs ih =>
    intro i hq p hp
    unfold dashParts at hp
    by_cases h : (pyStrip q).isEmpty
    · rw [if_pos h] at hp
      exact ih (i + 1) (fun r hr => hq r (List.mem_cons_of_mem q hr)) p hp
    · rw [if_neg h] at hp
      rcases List.mem_cons.mp hp with h2 | h2
      · by_cases hi : 0 < i
        · rw [if_pos hi] at h2
          rw [h2]
          intro hmem
          rcases mem_capPart (pyStrip q) '—' hmem with ⟨b, hb, hor⟩
          have hbq : b ∈ q := mem_of_mem_pyStrip q b hb
          have hbne : b ≠ '—' := fun he => hq q (List.mem_cons_self q qs) (he ▸ hbq)
          rcases hor with h3 | h3
          · exact pyUpperChar_ne_dash b hbne h3.symm
          · exact hbne h3.symm
        · rw [if_neg hi] at h2
          rw [h2]
          intro hmem
          exact hq q (List.mem_cons_self q qs) (mem_of_mem_pyStrip q '—' hmem)
      · exact ih (i + 1) (fun r hr => hq r (List.mem_cons_of_mem q hr)) p h2

theorem fix_punctuation_tells_no_dash (l : List Char) :
    '—' ∉ fix_punctuation_tells l := by
  unfold fix_punctuation_tells
  intro hmem
  have base : '—' ∉ (if l.contains '—' then dashStage l else l) →
      False := by
    intro hno
    rcases mem_collapseAux '.' 3 "...".data _ 0 '—' hmem with h | h | h
    · revert h; decide
    · revert h; decide
    · rcases mem_collapseAux '?' 2 "?".data _ 0 '—' h with h2 | h2 | h2
      · revert h2; decide
      · revert h2; decide
      · rcases mem_collapseAux '!' 2 "!".data _ 0 '—' h2 with h3 | h3 | h3
        · revert h3; decide
        · revert h3; decide
        · exact hno h3
  apply base
  by_cases hd : l.contains '—'
  · rw [if_pos hd]
    unfold dashStage
    intro hmem2
    rcases mem_joinSep ". ".data _ '—' hmem2 with h | ⟨p, hp, hap⟩
    · revert h; decide
    · have hsplit : ∀ q ∈ splitOnChar '—' l, '—' ∉ q := by
        intro q hq hqm
        exact (mem_of_mem_splitOnChar '—' l q hq '—' hqm).2 rfl
      exact dashParts_no_dash (splitOnChar '—' l) 0 hsplit p hp hap
  · rw [if_neg hd]
    intro hmem2
    rw [← List.elem_iff] at hmem2
    exact hd hmem2

theorem collapseRun_def (c : Char) (m : Nat) (r l : List Char) :
    collapseRun c m r l = collapseAux c m r 0 l := rfl

theorem fpt_eq_of_no_dash (t : List Char) (h : t.contains '—' = false) :
    fix_punctuation_tells t
      = collapseRun '.' 3 "...".data
          (collapseRun '?' 2 "?".data (collapseRun '!' 2 "!".data t)) := by
  unfold fix_punctuation_tells
  rw [h]
  rfl

theorem fix_punctuation_tells_idem (l : List Char) :
    fix_punctuation_tells (fix_punctuation_tells l) = fix_punctuation_tells l := by
  have hnd : (fix_punctuation_tells l).contains '—' = false := by
    rcases h : (fix_punctuation_tells l).contains '—'
    · rfl
    · exact absurd (List.elem_iff.mp h) (fix_punctuation_tells_no_dash l)
  have hyeq : fix_punctuation_tells l
      = collapseRun '.' 3 "...".data
          (collapseRun '?' 2 "?".data
            (collapseRun '!' 2 "!".data
              (if l.contains '—' then dashStage l else l))) := rfl
  have h1 : runsLeAux '!' 1 0 (fix_punctuation_tells l) = true := by
    rw [hyeq, collapseRun_def]
    apply collapse_preserves '.' '!' 3 "...".data (by decide) (by decide) (by decide) 1
    rw [if_pos rfl, collapseRun_def]
    apply collapse_preserves '?' '!' 2 "?".data (by decide) (by decide) (by decide) 1
    rw [if_pos rfl, collapseRun_def]
    have h := collapse_establishes '!' 1 1 2 (by omega) (by omega)
      (if l.contains '—' then dashStage l else l) 0
    rw [show List.replicate 1 '!' = "!".data from rfl] at h
    exact h
  have h2 : runsLeAux '?' 1 0 (fix_punctuation_tells l) = true := by
    rw [hyeq, collapseRun_def]
    apply collapse_preserves '.' '?' 3 "...".data (by decide) (by decide) (by decide) 1
    rw [if_pos rfl, collapseRun_def]
    have h := collapse_establishes '?' 1 1 2 (by omega) (by omega)
      (collapseRun '!' 2 "!".data (if l.contains '—' then dashStage l else l)) 0
    rw [show List.replicate 1 '?' = "?".data from rfl] at h
    rw [collapseRun_def]
    exact h
  have h3 : runsLeAux '.' 3 0 (fix_punctuation_tells l) = true := by
    rw [hyeq, collapseRun_def]
    have h := collapse_establishes '.' 3 3 3 (by omega) (by omega)
      (collapseRun '?' 2 "?".data
        (collapseRun '!' 2 "!".data (if l.contains '—' then dashStage l else l))) 0
    rw [show List.replicate 3 '.' = "...".data from rfl] at h
    exact h
  have hreA : ∀ k, k ≤ 1 → runEmit '!' 2 "!".data k = List.replicate k '!' := by
    intro k hk
    interval_cases k
    · decide
    · decide
  have hreB : ∀ k, k ≤ 1 → runEmit '?' 2 "?".data k = List.replicate k '?' := by
    intro k hk
    interval_cases k
    · decide
    · decide
  have hreC : ∀ k, k ≤ 3 → runEmit '.' 3 "...".data k = List.replicate k '.' := by
    intro k hk
    interval_cases k
    · decide
    · decide
    · decide
    · decide
  have hAy : collapseRun '!' 2 "!".data (fix_punctuation_tells l)
      = fix_punctuation_tells l := by
    rw [collapseRun_def, collapse_id '!' 1 2 "!".data hreA _ 0 h1]
    rfl
  have hBy : collapseRun '?' 2 "?".data (fix_punctuation_tells l)
      = fix_punctuation_tells l := by
    rw [collapseRun_def, collapse_id '?' 1 2 "?".data hreB _ 0 h2]
    rfl
  have hCy : collapseRun '.' 3 "...".data (fix_punctuation_tells l)
      = fix_punctuation_tells l := by
    rw [collapseRun_def, collapse_id '.' 3 3 "...".data hreC _ 0 h3]
    rfl
  rw [fpt_eq_of_no_dash _ hnd, hAy, hBy, hCy]



/-! ## Idempotence of the Lexical Substituter

Every rule of `word_replacements` is a case-insensitive, boundary-anchored
alternation of non-empty literals with a non-empty replacement whose words
are fresh: no suffix of any pattern literal can begin a match inside any
replacement, and scanning any replacement finds no match of any rule.
These two facts are decided by reduction (`litSuffix_no_match`,
`hasMatchF_through_repl`); from them, a rule's scan preserves match
failure at the head (`transport_matchVar`), every rule's own output is
free of its matches (`self_nomatch`), later rules preserve that freedom
(`preserve_nomatch`), and a match-free text is a fixed point
(`subRuleF_id_of_nomatch`) — so a second pass changes nothing. -/

def suffixesOf : List Char → List (List Char)
  | [] => [[]]
  | l@(_ :: xs) => l :: suffixesOf xs

def litOf : List Seg → List Char
  | [Seg.lit s] => s
  | _ => []

set_option maxRecDepth 2000000 in
set_option maxHeartbeats 4000000 in
theorem litSuffix_no_match : ∀ X : List Char,
    (word_replacements.all (fun ri => ri.variants.all (fun v =>
      (suffixesOf (litOf v)).all (fun β =>
        word_replacements.all (fun rj =>
          (matchVar true true [Seg.lit β] (rj.repl ++ X)).isNone))))) = true :=
  fun _ => rfl

def hasMatchF (r : RRule) : Nat → Bool → List Char → Bool
  | 0, _, _ => false
  | _ + 1, _, [] => false
  | fuel + 1, prevW, c :: cs =>
    if !r.bb || !prevW then
      match matchRuleAt r (c :: cs) with
      | some _ => true
      | none => hasMatchF r fuel (isWordChar c) cs
    else hasMatchF r fuel (isWordChar c) cs

set_option maxRecDepth 2000000 in
set_option maxHeartbeats 8000000 in
theorem hasMatchF_through_repl : ∀ ri ∈ word_replacements, ∀ rj ∈ word_replacements,
    ∀ (f : Nat) (X : List Char),
      hasMatchF ri (f + rj.repl.length) false (rj.repl ++ X)
        = hasMatchF ri f true X := by
  intro ri hri rj hrj f X
  fin_cases hri <;> fin_cases hrj <;> rfl

theorem pyLowerChar_toNat_of_upper (ch : Char) (h1 : 65 ≤ ch.toNat)
    (h2 : ch.toNat ≤ 90) : (pyLowerChar ch).toNat = ch.toNat + 32 := by
  unfold pyLowerChar
  rw [if_pos ⟨h1, h2⟩, Char.ofNat, dif_pos]
  · rfl
  · exact Or.inl (by omega)

theorem isWordChar_of_lowered (d : Char)
    (h : pyIsLowerAlpha (pyLowerChar d) = true) : isWordChar d = true := by
  by_cases hu : 65 ≤ d.toNat ∧ d.toNat ≤ 90
  · unfold isWordChar
    simp only [Bool.or_eq_true, Bool.and_eq_true, decide_eq_true_eq]
    exact Or.inl (Or.inl (Or.inr hu))
  · have he : pyLowerChar d = d := by unfold pyLowerChar; rw [if_neg hu]
    rw [he] at h
    unfold pyIsLowerAlpha at h
    rw [Bool.and_eq_true, decide_eq_true_eq, decide_eq_true_eq] at h
    unfold isWordChar
    simp only [Bool.or_eq_true, Bool.and_eq_true, decide_eq_true_eq]
    exact Or.inl (Or.inl (Or.inl h))

theorem suffixesOf_tail (a : Char) (l : List Char) :
    suffixesOf (a :: l) = (a :: l) :: suffixesOf l := rfl

theorem mem_suffixesOf_self (l : List Char) : l ∈ suffixesOf l := by
  cases l with
  | nil => exact List.mem_cons_self _ _
  | cons x xs => exact List.mem_cons_self _ _

theorem stripLit_some_ci (s : List Char) : ∀ (l r : List Char),
    stripLit true s l = some r →
      r = l.drop s.length ∧ s.length ≤ l.length ∧
      List.map pyLowerChar (l.take s.length) = s := by
  induction s with
  | nil =>
    intro l r h
    unfold stripLit at h
    injection h with h
    refine ⟨?_, by simp, rfl⟩
    rw [← h]
    rfl
  | cons a s ih =>
    intro l r h
    cases l with
    | nil => exact absurd h (by simp [stripLit])
    | cons c cs =>
      unfold stripLit at h
      by_cases hc : pyLowerChar c = a
      · rw [if_pos (by simpa using hc)] at h
        obtain ⟨h1, h2, h3⟩ := ih cs r h
        refine ⟨h1, by simpa using h2, ?_⟩
        simp only [List.length_cons, List.take_succ_cons, List.map_cons, h3, hc]
      · rw [if_neg (by simpa using hc)] at h
        exact absurd h (by simp)

theorem matchVar_single_lit_some (s l r : List Char)
    (h : matchVar true true [Seg.lit s] l = some r) :
    stripLit true s l = some r := by
  unfold matchVar at h
  rcases hs : stripLit true s l with _ | r0
  · rw [hs] at h
    exact absurd h (by simp)
  · rw [hs] at h
    unfold matchVar at h
    rw [if_pos rfl] at h
    cases r0 with
    | nil =>
      injection h with h
      rw [h]
    | cons c cs =>
      by_cases hw : isWordChar c
      · simp [hw] at h
      · simp only [hw, if_false, Bool.false_eq_true] at h
        injection h with h
        rw [h]

theorem matchVar_lit_cons (a : Char) (s : List Char) (c : Char) (cs : List Char) :
    matchVar true true [Seg.lit (a :: s)] (c :: cs)
      = if pyLowerChar c = a then matchVar true true [Seg.lit s] cs else none := by
  by_cases hc : pyLowerChar c = a
  · rw [if_pos hc]
    show (match stripLit true (a :: s) (c :: cs) with
          | some r => matchVar true true [] r
          | none => none) = matchVar true true [Seg.lit s] cs
    unfold stripLit
    rw [if_pos (by simpa using hc)]
    rfl
  · rw [if_neg hc]
    show (match stripLit true (a :: s) (c :: cs) with
          | some r => matchVar true true [] r
          | none => none) = none
    unfold stripLit
    rw [if_neg (by simpa using hc)]

theorem matchVar_lit_nil_cons (c : Char) (cs : List Char) :
    matchVar true true [Seg.lit []] (c :: cs)
      = if isWordChar c then none else some (c :: cs) := rfl

theorem matchVars_none_iff (ci ba : Bool) (vs : List (List Seg)) (l : List Char) :
    matchVars ci ba vs l = none ↔ ∀ v ∈ vs, matchVar ci ba v l = none := by
  induction vs with
  | nil => simp [matchVars]
  | cons v vs ih =>
    unfold matchVars
    rcases hv : matchVar ci ba v l with _ | r
    · simp only [List.mem_cons]
      constructor
      · intro h w hw
        rcases hw with rfl | hw
        · exact hv
        · exact (ih.mp h) w hw
      · intro h
        exact ih.mpr (fun w hw => h w (Or.inr hw))
    · simp only [List.mem_cons]
      constructor
      · intro h
        exact absurd h (by simp)
      · intro h
        exact absurd hv (by rw [h v (Or.inl rfl)]; simp)

theorem matchVars_some_ex (ci ba : Bool) (vs : List (List Seg)) (l r : List Char)
    (h : matchVars ci ba vs l = some r) :
    ∃ v ∈ vs, matchVar ci ba v l = some r := by
  induction vs with
  | nil => exact absurd h (by simp [matchVars])
  | cons v vs ih =>
    unfold matchVars at h
    rcases hv : matchVar ci ba v l with _ | r0
    · rw [hv] at h
      obtain ⟨w, hw, hww⟩ := ih h
      exact ⟨w, List.mem_cons_of_mem v hw, hww⟩
    · rw [hv] at h
      injection h with h
      exact ⟨v, List.mem_cons_self v vs, by rw [hv, h]⟩

theorem matchRuleAt_none_iff (r : RRule) (l : List Char) :
    matchRuleAt r l = none ↔ matchVars r.ci r.ba r.variants l = none := by
  unfold matchRuleAt
  rcases h : matchVars r.ci r.ba r.variants l with _ | rest
  · simp
  · simp

def varOK : List Seg → Bool
  | [Seg.lit s] => !s.isEmpty &&
      (match s.getLast? with | some c => pyIsLowerAlpha c | none => false)
  | _ => false

def wordRuleOK (r : RRule) : Bool :=
  r.ci && r.bb && r.ba && !r.trailWs && r.variants.all varOK &&
  !r.repl.isEmpty &&
  (match r.repl.head? with | some c => isWordChar c | none => false)

set_option maxRecDepth 100000 in
theorem word_replacements_ok : word_replacements.all wordRuleOK = true := by decide

theorem subRuleF_zero (r : RRule) (p : Bool) (l : List Char) :
    subRuleF r 0 p l = l := rfl

theorem subRuleF_nil (r : RRule) (f : Nat) (p : Bool) :
    subRuleF r (f + 1) p [] = [] := rfl

theorem subRuleF_cons_blocked (r : RRule) (f : Nat) (p : Bool) (c : Char)
    (cs : List Char) (hb : (!r.bb || !p) = false) :
    subRuleF r (f + 1) p (c :: cs) = c :: subRuleF r f (isWordChar c) cs := by
  simp only [subRuleF, hb, Bool.false_eq_true, if_false]

theorem subRuleF_cons_nomatch (r : RRule) (f : Nat) (p : Bool) (c : Char)
    (cs : List Char) (hb : (!r.bb || !p) = true)
    (hm : matchRuleAt r (c :: cs) = none) :
    subRuleF r (f + 1) p (c :: cs) = c :: subRuleF r f (isWordChar c) cs := by
  simp only [subRuleF, hb, if_true, hm]

theorem subRuleF_cons_match (r : RRule) (f : Nat) (p : Bool) (c : Char)
    (cs rest : List Char) (hb : (!r.bb || !p) = true)
    (hm : matchRuleAt r (c :: cs) = some rest) :
    subRuleF r (f + 1) p (c :: cs)
      = r.repl ++ subRuleF r f
          (match (c :: cs).get? ((c :: cs).length - rest.length - 1) with
           | some d => isWordChar d
           | none => p) rest := by
  simp only [subRuleF, hb, if_true, hm]

theorem wordRuleOK_parts (r : RRule) (hok : wordRuleOK r = true) :
    r.ci = true ∧ r.bb = true ∧ r.ba = true ∧ r.trailWs = false ∧
    r.variants.all varOK = true ∧
    ∃ rh rtl, r.repl = rh :: rtl ∧ isWordChar rh = true := by
  unfold wordRuleOK at hok
  repeat rw [Bool.and_eq_true] at hok
  obtain ⟨⟨⟨⟨⟨⟨hci, hbb⟩, hba⟩, htw⟩, hv⟩, hre⟩, hhd⟩ := hok
  refine ⟨hci, hbb, hba, by simpa using htw, hv, ?_⟩
  rcases hrepl : r.repl with _ | ⟨rh, rtl⟩
  · rw [hrepl] at hre
    simp at hre
  · rw [hrepl] at hhd
    exact ⟨rh, rtl, rfl, by simpa using hhd⟩

theorem transport_matchVar (rj : RRule) (hok : wordRuleOK rj = true) :
    ∀ lit : List Char,
      (∀ β ∈ suffixesOf lit, ∀ X : List Char,
          matchVar true true [Seg.lit β] (rj.repl ++ X) = none) →
      ∀ (fuel : Nat) (prev : Bool) (t : List Char),
        matchVar true true [Seg.lit lit] t = none →
        matchVar true true [Seg.lit lit] (subRuleF rj fuel prev t) = none := by
  obtain ⟨_, _, _, _, _, rh, rtl, hrepl, hrhw⟩ := wordRuleOK_parts rj hok
  intro lit
  induction lit with
  | nil =>
    intro hF fuel prev t hyp
    match fuel, t with
    | 0, t => rwa [subRuleF_zero]
    | f + 1, [] => rwa [subRuleF_nil]
    | f + 1, c :: cs =>
      have hw : isWordChar c = true := by
        rw [matchVar_lit_nil_cons] at hyp
        by_cases hwc : isWordChar c
        · exact hwc
        · rw [if_neg hwc] at hyp
          exact absurd hyp (by simp)
      by_cases hb : (!rj.bb || !prev) = true
      · rcases hm : matchRuleAt rj (c :: cs) with _ | rest
        · rw [subRuleF_cons_nomatch rj f prev c cs hb hm, matchVar_lit_nil_cons, if_pos hw]
        · rw [subRuleF_cons_match rj f prev c cs rest hb hm, hrepl,
            List.cons_append, matchVar_lit_nil_cons, if_pos hrhw]
      · rw [subRuleF_cons_blocked rj f prev c cs (by simpa using hb),
          matchVar_lit_nil_cons, if_pos hw]
  | cons a s ih =>
    intro hF fuel prev t hyp
    have hF' : ∀ β ∈ suffixesOf s, ∀ X : List Char,
        matchVar true true [Seg.lit β] (rj.repl ++ X) = none := by
      intro β hβ X
      exact hF β (by rw [suffixesOf_tail]; exact List.mem_cons_of_mem _ hβ) X
    match fuel, t with
    | 0, t => rwa [subRuleF_zero]
    | f + 1, [] => rwa [subRuleF_nil]
    | f + 1, c :: cs =>
      rw [matchVar_lit_cons] at hyp
      by_cases hb : (!rj.bb || !prev) = true
      · rcases hm : matchRuleAt rj (c :: cs) with _ | rest
        · rw [subRuleF_cons_nomatch rj f prev c cs hb hm, matchVar_lit_cons]
          by_cases hc : pyLowerChar c = a
          · rw [if_pos hc] at hyp ⊢
            exact ih hF' f (isWordChar c) cs hyp
          · rw [if_neg hc]
        · rw [subRuleF_cons_match rj f prev c cs rest hb hm]
          exact hF (a :: s) (mem_suffixesOf_self _) _
      · rw [subRuleF_cons_blocked rj f prev c cs (by simpa using hb), matchVar_lit_cons]
        by_cases hc : pyLowerChar c = a
        · rw [if_pos hc] at hyp ⊢
          exact ih hF' f (isWordChar c) cs hyp
        · rw [if_neg hc]

theorem hasMatchF_nil (r : RRule) (f : Nat) (p : Bool) :
    hasMatchF r (f + 1) p [] = false := rfl

theorem hasMatchF_cons_blocked (r : RRule) (f : Nat) (p : Bool) (c : Char)
    (cs : List Char) (hb : (!r.bb || !p) = false) :
    hasMatchF r (f + 1) p (c :: cs) = hasMatchF r f (isWordChar c) cs := by
  simp only [hasMatchF, hb, Bool.false_eq_true, if_false]

theorem hasMatchF_cons_nomatch (r : RRule) (f : Nat) (p : Bool) (c : Char)
    (cs : List Char) (hb : (!r.bb || !p) = true)
    (hm : matchRuleAt r (c :: cs) = none) :
    hasMatchF r (f + 1) p (c :: cs) = hasMatchF r f (isWordChar c) cs := by
  simp only [hasMatchF, hb, if_true, hm]

theorem hasMatchF_cons_match (r : RRule) (f : Nat) (p : Bool) (c : Char)
    (cs rest : List Char) (hb : (!r.bb || !p) = true)
    (hm : matchRuleAt r (c :: cs) = some rest) :
    hasMatchF r (f + 1) p (c :: cs) = true := by
  simp only [hasMatchF, hb, if_true, hm]

theorem hasMatchF_false_head (ri : RRule) (f1 : Nat) (c : Char) (cs : List Char)
    (H : hasMatchF ri (f1 + 1) false (c :: cs) = false) :
    matchRuleAt ri (c :: cs) = none ∧ hasMatchF ri f1 (isWordChar c) cs = false := by
  have hb : (!ri.bb || !false) = true := by simp
  rcases hm : matchRuleAt ri (c :: cs) with _ | rest
  · rw [hasMatchF_cons_nomatch ri f1 false c cs hb hm] at H
    exact ⟨rfl, H⟩
  · rw [hasMatchF_cons_match ri f1 false c cs rest hb hm] at H
    exact absurd H (by simp)

theorem hasMatchF_false_head_blocked (ri : RRule) (hbb : ri.bb = true) (f1 : Nat)
    (c : Char) (cs : List Char)
    (H : hasMatchF ri (f1 + 1) true (c :: cs) = false) :
    hasMatchF ri f1 (isWordChar c) cs = false := by
  rwa [hasMatchF_cons_blocked ri f1 true c cs (by simp [hbb])] at H

theorem getLast?_cons_eq (x : Char) (u : List Char) :
    (x :: u).getLast? = (match u.getLast? with
                         | some d => some d
                         | none => some x) := by
  cases u with
  | nil => rfl
  | cons y ys =>
    rw [List.getLast?_cons_cons]
    rcases h : (y :: ys).getLast? with _ | d
    · exact absurd h (by simp)
    · rfl

theorem hasMatchF_extract (ri : RRule) :
    ∀ (u : List Char) (p : Bool) (rest : List Char),
      (∀ f1, (u ++ rest).length < f1 → hasMatchF ri f1 p (u ++ rest) = false) →
      ∀ f2, rest.length < f2 →
        hasMatchF ri f2
          (match u.getLast? with | some d => isWordChar d | none => p) rest = false := by
  intro u
  induction u with
  | nil =>
    intro p rest H f2 hf2
    exact H f2 (by simpa using hf2)
  | cons x u ih =>
    intro p rest H f2 hf2
    have H' : ∀ f1, (u ++ rest).length < f1 →
        hasMatchF ri f1 (isWordChar x) (u ++ rest) = false := by
      intro f1 hf1
      have h0 := H (f1 + 1) (by rw [List.cons_append]; simp only [List.length_cons]; omega)
      rw [List.cons_append] at h0
      by_cases hb : (!ri.bb || !p) = true
      · rcases hm : matchRuleAt ri (x :: (u ++ rest)) with _ | r0
        · rwa [hasMatchF_cons_nomatch ri f1 p x (u ++ rest) hb hm] at h0
        · rw [hasMatchF_cons_match ri f1 p x (u ++ rest) r0 hb hm] at h0
          exact absurd h0 (by simp)
      · rwa [hasMatchF_cons_blocked ri f1 p x (u ++ rest) (by simpa using hb)] at h0
    have hgoal := ih (isWordChar x) rest H' f2 hf2
    rw [getLast?_cons_eq]
    rcases hu : u.getLast? with _ | d
    · rw [hu] at hgoal
      exact hgoal
    · rw [hu] at hgoal
      exact hgoal

theorem varOK_shape (v : List Seg) (h : varOK v = true) :
    ∃ s : List Char, v = [Seg.lit s] ∧ s ≠ [] ∧
      ∃ cl, s.getLast? = some cl ∧ pyIsLowerAlpha cl = true := by
  cases v with
  | nil => exact absurd h (by rw [show varOK [] = false from rfl]; simp)
  | cons seg rest =>
    cases seg with
    | ws1 =>
      cases rest with
      | nil => exact absurd h (by rw [show varOK [Seg.ws1] = false from rfl]; simp)
      | cons _ _ => exact absurd h (by rw [show varOK (Seg.ws1 :: _ :: _) = false from rfl]; simp)
    | lit s =>
      cases rest with
      | nil =>
        unfold varOK at h
        rw [Bool.and_eq_true] at h
        obtain ⟨h1, h2⟩ := h
        have hsne : s ≠ [] := by
          intro he
          rw [he] at h1
          simp at h1
        rcases hl : s.getLast? with _ | cl
        · rw [List.getLast?_eq_none_iff] at hl
          exact absurd hl hsne
        · rw [hl] at h2
          exact ⟨s, rfl, hsne, cl, hl, h2⟩
      | cons _ _ =>
        exact absurd h (by rw [show varOK (Seg.lit s :: _ :: _) = false from rfl]; simp)

theorem matchRuleAt_word_span (r : RRule) (hok : wordRuleOK r = true)
    (l rest : List Char) (hm0 : matchRuleAt r l = some rest) :
    ∃ n, 1 ≤ n ∧ n ≤ l.length ∧ rest = l.drop n ∧
      ∃ d, l.get? (n - 1) = some d ∧ isWordChar d = true := by
  obtain ⟨hci, _, hba, htw, hv, _⟩ := wordRuleOK_parts r hok
  unfold matchRuleAt at hm0
  rcases hmv : matchVars r.ci r.ba r.variants l with _ | r0
  · rw [hmv] at hm0
    exact absurd hm0 (by simp)
  · rw [hmv] at hm0
    injection hm0 with hm
    rw [htw] at hm
    simp only [Bool.false_eq_true, if_false] at hm
    rw [hci, hba] at hmv
    obtain ⟨v, hvmem, hvm⟩ := matchVars_some_ex true true r.variants l r0 hmv
    obtain ⟨s, rfl, hsne, cl, hlast, hcl⟩ := varOK_shape v ((List.all_eq_true.mp hv) v hvmem)
    have hstrip := matchVar_single_lit_some s l r0 hvm
    obtain ⟨hr0, hlen, hmap⟩ := stripLit_some_ci s l r0 hstrip
    have hn1 : 1 ≤ s.length := by
      cases s with
      | nil => exact absurd rfl hsne
      | cons _ _ => simp
    refine ⟨s.length, hn1, hlen, by rw [← hm]; exact hr0, ?_⟩
    have h1 : (l.take s.length).get? (s.length - 1) = l.get? (s.length - 1) :=
      List.get?_take (by omega)
    have h2 : ((l.take s.length).map pyLowerChar).get? (s.length - 1)
        = s.get? (s.length - 1) := by rw [hmap]
    rw [List.get?_map] at h2
    have h3 : s.get? (s.length - 1) = some cl := by
      rw [← List.getLast?_eq_get?]
      exact hlast
    rw [h3, h1] at h2
    rcases hd : l.get? (s.length - 1) with _ | d
    · rw [hd] at h2
      exact absurd h2 (by simp)
    · rw [hd] at h2
      simp only [Option.map_some'] at h2
      injection h2 with h2
      exact ⟨d, rfl, isWordChar_of_lowered d (by rw [h2]; exact hcl)⟩

theorem transport_matchRuleAt (ri rj : RRule) (hoki : wordRuleOK ri = true)
    (hokj : wordRuleOK rj = true)
    (hF : ∀ v ∈ ri.variants, ∀ β ∈ suffixesOf (litOf v), ∀ X : List Char,
        matchVar true true [Seg.lit β] (rj.repl ++ X) = none)
    (fuel : Nat) (prev : Bool) (t : List Char)
    (h : matchRuleAt ri t = none) :
    matchRuleAt ri (subRuleF rj fuel prev t) = none := by
  obtain ⟨hci, _, hba, _, hv, _⟩ := wordRuleOK_parts ri hoki
  rw [matchRuleAt_none_iff, hci, hba, matchVars_none_iff] at h ⊢
  intro v hvmem
  obtain ⟨s, rfl, _, _, _, _⟩ := varOK_shape v ((List.all_eq_true.mp hv) v hvmem)
  have hFs : ∀ β ∈ suffixesOf s, ∀ X : List Char,
      matchVar true true [Seg.lit β] (rj.repl ++ X) = none := by
    intro β hβ X
    have := hF [Seg.lit s] hvmem
    simp only [litOf] at this
    exact this β hβ X
  exact transport_matchVar rj hokj s hFs fuel prev t (h [Seg.lit s] hvmem)

theorem preserve_nomatch (ri rj : RRule) (hoki : wordRuleOK ri = true)
    (hokj : wordRuleOK rj = true)
    (hF : ∀ v ∈ ri.variants, ∀ β ∈ suffixesOf (litOf v), ∀ X : List Char,
        matchVar true true [Seg.lit β] (rj.repl ++ X) = none)
    (hRW : ∀ (f : Nat) (X : List Char),
        hasMatchF ri (f + rj.repl.length) false (rj.repl ++ X) = hasMatchF ri f true X) :
    ∀ (fuel : Nat) (t : List Char) (prev : Bool),
      (∀ f1, t.length < f1 → hasMatchF ri f1 prev t = false) →
      ∀ f2, (subRuleF rj fuel prev t).length < f2 →
        hasMatchF ri f2 prev (subRuleF rj fuel prev t) = false := by
  obtain ⟨_, hbbi, _, _, _, _⟩ := wordRuleOK_parts ri hoki
  obtain ⟨_, hbbj, _, _, _, _⟩ := wordRuleOK_parts rj hokj
  intro fuel
  induction fuel with
  | zero =>
    intro t prev H f2 hf2
    rw [subRuleF_zero] at hf2 ⊢
    exact H f2 hf2
  | succ f ih =>
    intro t prev H f2 hf2
    cases t with
    | nil =>
      rw [subRuleF_nil] at hf2 ⊢
      obtain ⟨g, rfl⟩ : ∃ g, f2 = g + 1 := ⟨f2 - 1, by omega⟩
      exact hasMatchF_nil ri g prev
    | cons c cs =>
      by_cases hb : (!rj.bb || !prev) = true
      · have hpf : prev = false := by
          rw [hbbj] at hb
          simpa using hb
        subst hpf
        rcases hm : matchRuleAt rj (c :: cs) with _ | rest
        · -- rule j copies this character
          rw [subRuleF_cons_nomatch rj f false c cs hb hm] at hf2 ⊢
          obtain ⟨g, rfl⟩ : ∃ g, f2 = g + 1 := ⟨f2 - 1, by omega⟩
          have hmi : matchRuleAt ri (c :: cs) = none :=
            (hasMatchF_false_head ri (c :: cs).length c cs
              (H ((c :: cs).length + 1) (by omega))).1
          have hT : matchRuleAt ri (c :: subRuleF rj f (isWordChar c) cs) = none := by
            have h0 := transport_matchRuleAt ri rj hoki hokj hF (f + 1) false (c :: cs) hmi
            rwa [subRuleF_cons_nomatch rj f false c cs hb hm] at h0
          rw [hasMatchF_cons_nomatch ri g false c _ (by simp) hT]
          refine ih cs (isWordChar c) ?_ g (by simpa using hf2)
          intro f1 hf1
          exact (hasMatchF_false_head ri f1 c cs (H (f1 + 1) (by simp; omega))).2
        · -- rule j rewrites a span here
          obtain ⟨n, hn1, hnle, hrest, d, hd, hdw⟩ :=
            matchRuleAt_word_span rj hokj (c :: cs) rest hm
          have hlen_eq : (c :: cs).length - rest.length = n := by
            rw [hrest, List.length_drop]
            omega
          have hlw : (match (c :: cs).get? ((c :: cs).length - rest.length - 1) with
              | some x => isWordChar x
              | none => false) = true := by
            rw [hlen_eq, hd]
            exact hdw
          have hout : subRuleF rj (f + 1) false (c :: cs)
              = rj.repl ++ subRuleF rj f true rest := by
            rw [subRuleF_cons_match rj f false c cs rest hb hm, hlw]
          rw [hout] at hf2 ⊢
          have hu : ((c :: cs).take n).getLast? = some d := by
            rw [List.getLast?_eq_get?]
            have hlt : ((c :: cs).take n).length = n := by
              rw [List.length_take]
              omega
            rw [hlt, List.get?_take (by omega)]
            exact hd
          have H2 : ∀ f1, rest.length < f1 → hasMatchF ri f1 true rest = false := by
            intro f1 hf1
            have hAu : ∀ fl, ((c :: cs).take n ++ rest).length < fl →
                hasMatchF ri fl false ((c :: cs).take n ++ rest) = false := by
              intro fl hfl
              rw [hrest, List.take_append_drop] at hfl ⊢
              exact H fl hfl
            have hex := hasMatchF_extract ri ((c :: cs).take n) false rest hAu f1 hf1
            have heq : (match ((c :: cs).take n).getLast? with
                | some x => isWordChar x
                | none => false) = true := by
              rw [hu]
              exact hdw
            rw [← heq]
            exact hex
          have hlenf : rj.repl.length + (subRuleF rj f true rest).length < f2 := by
            rw [List.length_append] at hf2
            omega
          have hsplit : f2 = (f2 - rj.repl.length) + rj.repl.length := by omega
          rw [hsplit, hRW (f2 - rj.repl.length) (subRuleF rj f true rest)]
          exact ih rest true H2 (f2 - rj.repl.length) (by omega)
      · -- blocked position
        have hpt : prev = true := by
          rw [hbbj] at hb
          simpa using hb
        subst hpt
        rw [subRuleF_cons_blocked rj f true c cs (by simpa using hb)] at hf2 ⊢
        obtain ⟨g, rfl⟩ : ∃ g, f2 = g + 1 := ⟨f2 - 1, by omega⟩
        rw [hasMatchF_cons_blocked ri g true c _ (by simp [hbbi])]
        refine ih cs (isWordChar c) ?_ g (by simpa using hf2)
        intro f1 hf1
        exact hasMatchF_false_head_blocked ri hbbi f1 c cs (H (f1 + 1) (by simp; omega))

theorem self_nomatch (rj : RRule) (hokj : wordRuleOK rj = true)
    (hF : ∀ v ∈ rj.variants, ∀ β ∈ suffixesOf (litOf v), ∀ X : List Char,
        matchVar true true [Seg.lit β] (rj.repl ++ X) = none)
    (hRW : ∀ (f : Nat) (X : List Char),
        hasMatchF rj (f + rj.repl.length) false (rj.repl ++ X) = hasMatchF rj f true X) :
    ∀ (fuel : Nat) (t : List Char) (prev : Bool), t.length < fuel →
      ∀ f2, (subRuleF rj fuel prev t).length < f2 →
        hasMatchF rj f2 prev (subRuleF rj fuel prev t) = false := by
  obtain ⟨_, hbbj, _, _, _, _⟩ := wordRuleOK_parts rj hokj
  intro fuel
  induction fuel with
  | zero =>
    intro t prev hsuf
    omega
  | succ f ih =>
    intro t prev hsuf f2 hf2
    cases t with
    | nil =>
      rw [subRuleF_nil] at hf2 ⊢
      obtain ⟨g, rfl⟩ : ∃ g, f2 = g + 1 := ⟨f2 - 1, by omega⟩
      exact hasMatchF_nil rj g prev
    | cons c cs =>
      by_cases hb : (!rj.bb || !prev) = true
      · have hpf : prev = false := by
          rw [hbbj] at hb
          simpa using hb
        subst hpf
        rcases hm : matchRuleAt rj (c :: cs) with _ | rest
        · rw [subRuleF_cons_nomatch rj f false c cs hb hm] at hf2 ⊢
          obtain ⟨g, rfl⟩ : ∃ g, f2 = g + 1 := ⟨f2 - 1, by omega⟩
          have hT : matchRuleAt rj (c :: subRuleF rj f (isWordChar c) cs) = none := by
            have h0 := transport_matchRuleAt rj rj hokj hokj hF (f + 1) false (c :: cs) hm
            rwa [subRuleF_cons_nomatch rj f false c cs hb hm] at h0
          rw [hasMatchF_cons_nomatch rj g false c _ hb hT]
          exact ih cs (isWordChar c) (by simp at hsuf; omega) g (by simpa using hf2)
        · obtain ⟨n, hn1, hnle, hrest, d, hd, hdw⟩ :=
            matchRuleAt_word_span rj hokj (c :: cs) rest hm
          have hlen_eq : (c :: cs).length - rest.length = n := by
            rw [hrest, List.length_drop]
            omega
          have hlw : (match (c :: cs).get? ((c :: cs).length - rest.length - 1) with
              | some x => isWordChar x
              | none => false) = true := by
            rw [hlen_eq, hd]
            exact hdw
          have hout : subRuleF rj (f + 1) false (c :: cs)
              = rj.repl ++ subRuleF rj f true rest := by
            rw [subRuleF_cons_match rj f false c cs rest hb hm, hlw]
          rw [hout] at hf2 ⊢
          have hrl : rest.length < f := by
            rw [hrest, List.length_drop]
            simp only [List.length_cons] at hsuf ⊢
            omega
          have hsplit : f2 = (f2 - rj.repl.length) + rj.repl.length := by
            rw [List.length_append] at hf2
            omega
          rw [hsplit, hRW (f2 - rj.repl.length) (subRuleF rj f true rest)]
          refine ih rest true hrl (f2 - rj.repl.length) ?_
          rw [List.length_append] at hf2
          omega
      · have hpt : prev = true := by
          rw [hbbj] at hb
          simpa using hb
        subst hpt
        rw [subRuleF_cons_blocked rj f true c cs (by simpa using hb)] at hf2 ⊢
        obtain ⟨g, rfl⟩ : ∃ g, f2 = g + 1 := ⟨f2 - 1, by omega⟩
        rw [hasMatchF_cons_blocked rj g true c _ (by simp [hbbj])]
        exact ih cs (isWordChar c) (by simp at hsuf; omega) g (by simpa using hf2)

theorem subRuleF_id_of_nomatch (r : RRule) :
    ∀ (fuel : Nat) (prev : Bool) (t : List Char),
      hasMatchF r fuel prev t = false → subRuleF r fuel prev t = t := by
  intro fuel
  induction fuel with
  | zero => intro prev t _; rfl
  | succ f ih =>
    intro prev t h
    cases t with
    | nil => rfl
    | cons c cs =>
      by_cases hb : (!r.bb || !prev) = true
      · rcases hm : matchRuleAt r (c :: cs) with _ | rest
        · rw [subRuleF_cons_nomatch r f prev c cs hb hm]
          rw [hasMatchF_cons_nomatch r f prev c cs hb hm] at h
          rw [ih (isWordChar c) cs h]
        · rw [hasMatchF_cons_match r f prev c cs rest hb hm] at h
          exact absurd h (by simp)
      · rw [subRuleF_cons_blocked r f prev c cs (by simpa using hb)]
        rw [hasMatchF_cons_blocked r f prev c cs (by simpa using hb)] at h
        rw [ih (isWordChar c) cs h]

/-- No match of `r` anywhere in `t` (scanning from a fresh position). -/
def NoMatchAt (r : RRule) (t : List Char) : Prop :=
  ∀ f, t.length < f → hasMatchF r f false t = false

theorem litSuffix_no_match_elim (ri rj : RRule) (hri : ri ∈ word_replacements)
    (hrj : rj ∈ word_replacements) :
    ∀ v ∈ ri.variants, ∀ β ∈ suffixesOf (litOf v), ∀ X : List Char,
      matchVar true true [Seg.lit β] (rj.repl ++ X) = none := by
  intro v hv β hβ X
  have h1 := List.all_eq_true.mp (litSuffix_no_match X) ri hri
  have h2 := List.all_eq_true.mp h1 v hv
  have h3 := List.all_eq_true.mp h2 β hβ
  have h4 := List.all_eq_true.mp h3 rj hrj
  exact Option.isNone_iff_eq_none.mp h4

theorem wordRuleOK_elim (r : RRule) (hr : r ∈ word_replacements) :
    wordRuleOK r = true :=
  (List.all_eq_true.mp word_replacements_ok) r hr

theorem chain_preserve (ri : RRule) (hri : ri ∈ word_replacements) :
    ∀ (rs : List RRule), (∀ r ∈ rs, r ∈ word_replacements) →
      ∀ t, NoMatchAt ri t → NoMatchAt ri (subRules rs t) := by
  intro rs
  induction rs with
  | nil => intro _ t h; exact h
  | cons r0 rs ih =>
    intro hsub t h
    have hr0 : r0 ∈ word_replacements := hsub r0 (List.mem_cons_self r0 rs)
    have h0 : NoMatchAt ri (subRule r0 t) := by
      intro f2 hf2
      exact preserve_nomatch ri r0 (wordRuleOK_elim ri hri) (wordRuleOK_elim r0 hr0)
        (litSuffix_no_match_elim ri r0 hri hr0) (hasMatchF_through_repl ri hri r0 hr0)
        (t.length + 1) t false h f2 hf2
    rw [show subRules (r0 :: rs) t = subRules rs (subRule r0 t) from rfl]
    exact ih (fun r' hr' => hsub r' (List.mem_cons_of_mem r0 hr')) (subRule r0 t) h0

theorem subRules_all_nomatch :
    ∀ (rs : List RRule), (∀ r ∈ rs, r ∈ word_replacements) →
      ∀ t, ∀ r ∈ rs, NoMatchAt r (subRules rs t) := by
  intro rs
  induction rs with
  | nil =>
    intro _ t r hr
    exact absurd hr (List.not_mem_nil r)
  | cons r0 rs ih =>
    intro hsub t r hr
    rw [show subRules (r0 :: rs) t = subRules rs (subRule r0 t) from rfl]
    rcases List.mem_cons.mp hr with rfl | hr'
    · have hr0 : r ∈ word_replacements := hsub r (List.mem_cons_self r rs)
      have h0 : NoMatchAt r (subRule r t) := by
        intro f2 hf2
        exact self_nomatch r (wordRuleOK_elim r hr0)
          (litSuffix_no_match_elim r r hr0 hr0) (hasMatchF_through_repl r hr0 r hr0)
          (t.length + 1) t false (by omega) f2 hf2
      exact chain_preserve r hr0 rs
        (fun r' hr' => hsub r' (List.mem_cons_of_mem _ hr')) (subRule r t) h0
    · exact ih (fun r' h => hsub r' (List.mem_cons_of_mem r0 h)) (subRule r0 t) r hr'

theorem subRules_id_of_nomatch :
    ∀ (rs : List RRule) (y : List Char), (∀ r ∈ rs, NoMatchAt r y) →
      subRules rs y = y := by
  intro rs
  induction rs with
  | nil => intro y _; rfl
  | cons r0 rs ih =>
    intro y h
    have h0 : subRule r0 y = y :=
      subRuleF_id_of_nomatch r0 (y.length + 1) false y
        (h r0 (List.mem_cons_self r0 rs) (y.length + 1) (by omega))
    rw [show subRules (r0 :: rs) y = subRules rs (subRule r0 y) from rfl, h0]
    exact ih y (fun r hr => h r (List.mem_cons_of_mem r0 hr))

/-- The Lexical Substituter is idempotent on every string: its own output
contains no occurrence of any of its patterns. -/
theorem replace_ai_word_choices_idem (l : List Char) :
    replace_ai_word_choices (replace_ai_word_choices l)
      = replace_ai_word_choices l := by
  unfold replace_ai_word_choices
  exact subRules_id_of_nomatch word_replacements (subRules word_replacements l)
    (subRules_all_nomatch word_replacements (fun r h => h) l)

/-- The seven `run_self_test` inputs of the source. -/
def run_self_test_inputs : List (List Char) :=
  ["This is a test — and it continues here",
   "Let us delve into this topic and leverage our knowledge to utilize the tools",
   "It's worth noting that this is important. Generally speaking, we should proceed.",
   "EPIC GAMING GUIDE — The ULTIMATE Comprehensive Tutorial!!!",
   "In this video we'll explore the amazing world of gaming. Don't forget to subscribe!",
   "Embark on an epic journey and master the art of combat to unleash your potential",
   "Moreover, it's worth noting that we should delve into this — it's a robust solution!!!"].map
    String.data

set_option maxRecDepth 1000000 in
/-- C3 (amended): the Punctuation Normalizer and the Lexical Substituter
are idempotent for EVERY string; the Hedge Remover and the Whitespace
Normalizer are not idempotent for every string (see the counterexample),
but both are idempotent on their own outputs for each of the repository's
seven self-test inputs. -/
theorem C3_stage_idempotence :
    (∀ l : List Char,
      fix_punctuation_tells (fix_punctuation_tells l) = fix_punctuation_tells l) ∧
    (∀ l : List Char,
      replace_ai_word_choices (replace_ai_word_choices l)
        = replace_ai_word_choices l) ∧
    (∀ s ∈ run_self_test_inputs,
      remove_hedging_language (remove_hedging_language s)
          = remove_hedging_language s ∧
        clean_whitespace (clean_whitespace s) = clean_whitespace s) :=
  ⟨fix_punctuation_tells_idem, replace_ai_word_choices_idem, by decide⟩
